import Mathlib

/-!
Verification of the response-parsing and code-cleaning pipeline of the
Omega_Code repository (`coder.py`).  Text is modelled as `List Char`; each
Python helper of `OmegaCoder` is embedded as an executable Lean function
that follows the source line by line.  The regular expressions used by the
source are small and fixed, so each one is embedded as an explicit
left-to-right scanner with the exact matching semantics of the Python
`re` module for that pattern (leftmost match, lazy or greedy subparts as
in the pattern, `IGNORECASE` / `MULTILINE` / `DOTALL` flags as used at
each call site).
-/

namespace Omega

/-- Text is a list of characters. -/
abbrev Str := List Char

/-- Shorthand turning a Lean string literal into `Str`. -/
def S (s : String) : Str := s.toList

/-- The backtick character. -/
def btick : Char := Char.ofNat 96

/-- Python whitespace for `str.strip` / `str.rstrip` and `re` `\s` (ASCII):
space, tab, newline, carriage return, vertical tab, form feed. -/
def isSpaceCh (c : Char) : Bool :=
  c = ' ' ∨ c = '\t' ∨ c = '\n' ∨ c = '\r' ∨ c = Char.ofNat 11 ∨ c = Char.ofNat 12

/-- JSON whitespace (RFC 8259): space, tab, newline, carriage return. -/
def isJsonWs (c : Char) : Bool :=
  c = ' ' ∨ c = '\t' ∨ c = '\n' ∨ c = '\r'

/-- The character class `[a-z]` of the fence-removal pattern. -/
def isLowerAl (c : Char) : Bool := 'a' ≤ c ∧ c ≤ 'z'

/-- The character class of a quote: `'` or `"`. -/
def isQuoteCh (c : Char) : Bool := c = '\'' ∨ c = '"'

/-- ASCII decimal digit. -/
def isDigitCh (c : Char) : Bool := '0' ≤ c ∧ c ≤ '9'

/-- ASCII lowering, as Python `str.lower` acts on the ASCII inputs used by
the `IGNORECASE` patterns of the source. -/
def lowerC (c : Char) : Char := c.toLower

/-- `isPre p l` holds when `p` is a leading run of `l`
(Python `str.startswith`). -/
def isPre : Str → Str → Bool
  | [], _ => true
  | _ :: _, [] => false
  | a :: as, b :: bs => a = b && isPre as bs

/-- Case-insensitive `isPre` (both sides lowered), for the `IGNORECASE`
patterns. -/
def isPreCI : Str → Str → Bool
  | [], _ => true
  | _ :: _, [] => false
  | a :: as, b :: bs => lowerC a = lowerC b && isPreCI as bs

/-- `containsSub p l`: `p` occurs contiguously somewhere in `l`
(Python `p in l`). -/
def containsSub (p : Str) : Str → Bool
  | [] => isPre p []
  | c :: rest => isPre p (c :: rest) || containsSub p rest

/-- Case-insensitive occurrence of `p` (given lowercased) in `l`. -/
def containsCI (p : Str) : Str → Bool
  | [] => isPreCI p []
  | c :: rest => isPreCI p (c :: rest) || containsCI p rest

/-- Three consecutive backticks. -/
def trip : Str := [btick, btick, btick]

/-- Whether the text contains a triple backtick. -/
def containsTriple (l : Str) : Bool := containsSub trip l

/-- `endsW suf l` : Python `l.endswith(suf)`. -/
def endsW (suf l : Str) : Bool := isPre suf.reverse l.reverse

/-- Leftmost occurrence search: `findSub p l = some (a, b)` when
`l = a ++ p ++ b` with `a` shortest possible; `none` when `p` does not
occur in `l`. -/
def findSub (p : Str) : Str → Option (Str × Str)
  | [] => if isPre p [] then some ([], []) else none
  | c :: rest =>
    if isPre p (c :: rest) then some ([], (c :: rest).drop p.length)
    else
      match findSub p rest with
      | some (a, b) => some (c :: a, b)
      | none => none

/-- Python `text.split('\n')`: always at least one piece, empty pieces kept. -/
def splitLines : Str → List Str
  | [] => [[]]
  | c :: rest =>
    match splitLines rest with
    | [] => [[]]
    | h :: t => if c = '\n' then [] :: h :: t else (c :: h) :: t

/-- Python `'\n'.join(pieces)`. -/
def joinLines : List Str → Str
  | [] => []
  | [l] => l
  | l :: rest => l ++ '\n' :: joinLines rest

/-- Python `text.lstrip()` (whitespace). -/
def lstripWs (l : Str) : Str := l.dropWhile (fun c => isSpaceCh c)

/-- Python `text.rstrip()` (whitespace). -/
def rstripWs (l : Str) : Str := (l.reverse.dropWhile (fun c => isSpaceCh c)).reverse

/-- Python `text.strip()` (whitespace, both ends). -/
def stripWs (l : Str) : Str := rstripWs (lstripWs l)

/-- Membership in the character set of Python `strip('- ')`. -/
def isDashSp (c : Char) : Bool := c = '-' ∨ c = ' '

/-- Python `text.strip('- ')`: drop `-` and space characters from both ends. -/
def stripDashBoth (l : Str) : Str :=
  ((l.dropWhile (fun c => isDashSp c)).reverse.dropWhile (fun c => isDashSp c)).reverse

/-- Leading-only variant (the spec speaks of stripping *leading* list
markers); used on the spec side of the refinement for claim C6. -/
def lstripDashSp (l : Str) : Str := l.dropWhile (fun c => isDashSp c)

/-! ### The prompt-echo removal patterns

`re.sub(r'# Response:.*?\n', '', code, flags=re.IGNORECASE)` and the `//`
variant.  Without `DOTALL`, `.` does not match a newline, so the lazy
`.*?\n` extends exactly to the first newline after the marker; a marker
occurrence with no later newline does not match.  `re.sub` scans left to
right and resumes after each removed match. -/

/-- After the marker has matched: drop everything up to and including the
first newline; `none` when there is no newline (then the pattern does not
match at this position). -/
def dropToNl : Str → Option Str
  | [] => none
  | c :: rest => if c = '\n' then some rest else dropToNl rest

/-- Try the echo pattern (marker given lowercased) at the current position;
on success return the text after the match. -/
def echoMatch (m : Str) (l : Str) : Option Str :=
  if isPreCI m l then dropToNl (l.drop m.length) else none

/-- Fuel-driven scanner for `re.sub(marker-pattern, '', text)`.  The fuel is
initialised to the text length; every step consumes at least one character,
so the fuel never runs out on the initial call. -/
def subEchoF (m : Str) : Nat → Str → Str
  | _, [] => []
  | 0, l => l
  | f + 1, c :: rest =>
    match echoMatch m (c :: rest) with
    | some after => subEchoF m f after
    | none => c :: subEchoF m f rest

/-- `re.sub(r'<m>.*?\n', '', l, flags=re.IGNORECASE)`. -/
def subEcho (m l : Str) : Str := subEchoF m l.length l

/-- Marker of the first echo pattern, lowercased. -/
def mHash : Str := S "# response:"

/-- Marker of the second echo pattern, lowercased. -/
def mSlash : Str := S "// response:"

/-! ### Markdown-fence removal

`re.sub(r'```[a-z]*\n', '', code)` then `code.replace('```', '')`. -/

/-- Try the opening-fence pattern ```` ```[a-z]*\n ```` at the current
position: three backticks, then a greedy run of lowercase letters, which
must be immediately followed by a newline. -/
def fenceMatch (l : Str) : Option Str :=
  if isPre trip l then
    match (l.drop 3).dropWhile (fun c => isLowerAl c) with
    | c :: t => if c = '\n' then some t else none
    | [] => none
  else none

/-- Fuel-driven scanner for the opening-fence substitution. -/
def subFenceOpenF : Nat → Str → Str
  | _, [] => []
  | 0, l => l
  | f + 1, c :: rest =>
    match fenceMatch (c :: rest) with
    | some after => subFenceOpenF f after
    | none => c :: subFenceOpenF f rest

/-- `re.sub(r'```[a-z]*\n', '', l)`. -/
def subFenceOpen (l : Str) : Str := subFenceOpenF l.length l

/-- `l.replace('```', '')`: remove every (leftmost, non-overlapping)
triple-backtick, resuming after each removal. -/
def removeTriple : Str → Str
  | [] => []
  | [c] => [c]
  | [c₁, c₂] => [c₁, c₂]
  | c₁ :: c₂ :: c₃ :: rest =>
    if c₁ = btick ∧ c₂ = btick ∧ c₃ = btick then removeTriple rest
    else c₁ :: removeTriple (c₂ :: c₃ :: rest)

/-! ### Language detection (`_detect_language`)

`Path(filename).suffix.lower()` looked up in a fixed table, default
`'text'`.  `pathlib` is modelled for the plain relative paths the pipeline
passes it: trailing slashes are dropped, the name is the part after the
last `/`, and the suffix is the part of the name from its last dot on,
provided that dot is neither the first nor the last character of the
name. -/

/-- `Path(filename).name` for plain paths. -/
def pathNameOf (l : Str) : Str :=
  ((l.reverse.dropWhile (fun c => c = '/')).takeWhile (fun c => c ≠ '/')).reverse

/-- `Path(filename).suffix` for plain paths. -/
def pathSuffixOf (l : Str) : Str :=
  let n := pathNameOf l
  let revAfter := n.reverse.takeWhile (fun c => c ≠ '.')
  match n.reverse.dropWhile (fun c => c ≠ '.') with
  | [] => []
  | [_] => []
  | _ :: _ :: _ => if revAfter = [] then [] else '.' :: revAfter.reverse

/-- The extension table of `_detect_language`. -/
def extTable : List (Str × Str) :=
  [(S ".py", S "python"), (S ".js", S "javascript"), (S ".ts", S "typescript"),
   (S ".jsx", S "react"), (S ".tsx", S "react-ts"), (S ".java", S "java"),
   (S ".cpp", S "cpp"), (S ".c", S "c"), (S ".rs", S "rust"), (S ".go", S "go"),
   (S ".rb", S "ruby"), (S ".php", S "php"), (S ".html", S "html"),
   (S ".css", S "css"), (S ".md", S "markdown"), (S ".json", S "json"),
   (S ".yml", S "yaml"), (S ".yaml", S "yaml"), (S ".toml", S "toml"),
   (S ".sh", S "bash"), (S ".sql", S "sql")]

/-- First-match association lookup. -/
def lookupStr : List (Str × Str) → Str → Option Str
  | [], _ => none
  | (k, v) :: rest, key => if k = key then some v else lookupStr rest key

/-- `_detect_language(filename)`. -/
def detectLanguage (filename : Str) : Str :=
  match lookupStr extTable ((pathSuffixOf filename).map lowerC) with
  | some tag => tag
  | none => S "text"

/-! ### The JSON values returned by `json.loads`

`_parse_structure_response` returns `json.loads(...)` unchanged when a
fenced JSON block is found, so the parser's result type is a JSON value.
`json.loads` is the Python standard library; it is modelled here by a
recursive-descent parser for its default (strict) grammar.  Parse success
and failure coincide with `json.loads`: integer and floating-point
number tokens (including the `Infinity`/`-Infinity`/`NaN` constants the
default parser accepts), string escapes including `\uXXXX` and surrogate
pairs, strict rejection of raw control characters inside strings, and
the four whitespace characters between tokens.  Two value-level
conventions, which affect no property used here: a number with a
fractional or exponent part is kept as its lexeme in the `flt`
constructor (its floating-point value is not interpreted — floating
point is outside the embedding), and a lone surrogate escape, which
`json.loads` keeps as a lone surrogate code unit, is represented by
U+FFFD because `Char` carries Unicode scalar values. -/

inductive Json where
  | null : Json
  | bool (b : Bool) : Json
  | num (n : Int) : Json
  | flt (lit : Str) : Json
  | str (s : Str) : Json
  | arr (items : List Json) : Json
  | obj (fields : List (Str × Json)) : Json

/-- What the parser is currently asked to parse. -/
inductive PK where
  | val : PK
  | strTail (acc : Str) : PK
  | arrTail (acc : List Json) : PK
  | objTail (acc : List (Str × Json)) : PK

/-- Parser intermediate results. -/
inductive PR where
  | v (j : Json) : PR
  | s (st : Str) : PR

/-- JSON string escapes (`\uXXXX` not interpreted). -/
def escCh (c : Char) : Option Char :=
  if c = '"' then some '"'
  else if c = '\\' then some '\\'
  else if c = '/' then some '/'
  else if c = 'n' then some '\n'
  else if c = 't' then some '\t'
  else if c = 'r' then some '\r'
  else if c = 'b' then some (Char.ofNat 8)
  else if c = 'f' then some (Char.ofNat 12)
  else none

/-- Digits to a natural number. -/
def digitsToNat (ds : Str) : Nat :=
  ds.foldl (fun n c => n * 10 + (c.toNat - 48)) 0

/-- Hexadecimal digit value. -/
def hexVal (c : Char) : Option Nat :=
  if '0' ≤ c ∧ c ≤ '9' then some (c.toNat - 48)
  else if 'a' ≤ c ∧ c ≤ 'f' then some (c.toNat - 87)
  else if 'A' ≤ c ∧ c ≤ 'F' then some (c.toNat - 55)
  else none

/-- Four hexadecimal digits, as in a `\uXXXX` escape. -/
def parse4hex : Str → Option (Nat × Str)
  | a :: b :: c :: d :: rest =>
    (match hexVal a, hexVal b, hexVal c, hexVal d with
     | some x, some y, some z, some w => some (((x * 16 + y) * 16 + z) * 16 + w, rest)
     | _, _, _, _ => none)
  | _ => none

/-- The replacement character standing in for a lone surrogate escape. -/
def replCh : Char := Char.ofNat 0xFFFD

/-- The fraction part `.digits` of a number token, if present (an
unmatched `.` is left in the remainder, as by the number regex). -/
def pFrac : Str → Option (Str × Str)
  | '.' :: r =>
    let ds := r.takeWhile (fun c => isDigitCh c)
    if ds = [] then none else some ('.' :: ds, r.drop ds.length)
  | _ => none

/-- The exponent part `[eE][+-]?digits` of a number token, if present. -/
def pExp : Str → Option (Str × Str)
  | e :: r =>
    if e = 'e' ∨ e = 'E' then
      match r with
      | s :: r₂ =>
        if s = '+' ∨ s = '-' then
          (let ds := r₂.takeWhile (fun c => isDigitCh c)
           if ds = [] then none else some (e :: s :: ds, r₂.drop ds.length))
        else
          (let ds := r.takeWhile (fun c => isDigitCh c)
           if ds = [] then none else some (e :: ds, r.drop ds.length))
      | [] => none
    else none
  | [] => none

/-- Parse a JSON number token at the head of `l`: optional minus sign,
integer part without leading zeros, optional fraction and exponent, plus
the `-Infinity` constant reachable through the minus sign.  A purely
integral token yields `Json.num`; any other yields `Json.flt` holding
the lexeme. -/
def pNum (l : Str) : Except Unit (Json × Str) :=
  let (neg, l₁) := match l with
    | '-' :: r => (true, r)
    | _ => (false, l)
  if isPre (S "Infinity") l₁ then
    Except.ok (Json.flt ((if neg then ['-'] else []) ++ S "Infinity"), l₁.drop 8)
  else
    let ip := l₁.takeWhile (fun c => isDigitCh c)
    let l₂ := l₁.drop ip.length
    match ip with
    | [] => Except.error ()
    | '0' :: _ :: _ => Except.error ()
    | _ =>
      let (fr, l₃) :=
        match pFrac l₂ with
        | some (f, r) => (some f, r)
        | none => ((none : Option Str), l₂)
      let (ex, l₄) :=
        match pExp l₃ with
        | some (e, r) => (some e, r)
        | none => ((none : Option Str), l₃)
      match fr, ex with
      | none, none =>
        let n : Int := Int.ofNat (digitsToNat ip)
        Except.ok (Json.num (if neg then -n else n), l₂)
      | _, _ =>
        Except.ok
          (Json.flt ((if neg then ['-'] else []) ++ ip ++ fr.getD [] ++ ex.getD []), l₄)

/-- The recursive-descent core, structurally recursive on fuel.  Every
recursive call consumes input, so fuel proportional to the input length
never runs out. -/
def pAux : Nat → PK → Str → Except Unit (PR × Str)
  | 0, _, _ => Except.error ()
  | f + 1, PK.strTail acc, l =>
    match l with
    | [] => Except.error ()
    | '"' :: rest => Except.ok (PR.s acc.reverse, rest)
    | '\\' :: e :: rest =>
      if e = 'u' then
        match parse4hex rest with
        | none => Except.error ()
        | some (n, rest₂) =>
          if 0xD800 ≤ n ∧ n ≤ 0xDBFF then
            (match rest₂ with
             | '\\' :: 'u' :: rest₃ =>
               (match parse4hex rest₃ with
                | some (n₂, rest₄) =>
                  if 0xDC00 ≤ n₂ ∧ n₂ ≤ 0xDFFF then
                    pAux f (PK.strTail
                      (Char.ofNat (0x10000 + (n - 0xD800) * 0x400 + (n₂ - 0xDC00)) :: acc))
                      rest₄
                  else pAux f (PK.strTail (replCh :: acc)) rest₂
                | none => pAux f (PK.strTail (replCh :: acc)) rest₂)
             | _ => pAux f (PK.strTail (replCh :: acc)) rest₂)
          else if 0xDC00 ≤ n ∧ n ≤ 0xDFFF then
            pAux f (PK.strTail (replCh :: acc)) rest₂
          else
            pAux f (PK.strTail (Char.ofNat n :: acc)) rest₂
      else
        (match escCh e with
         | some c => pAux f (PK.strTail (c :: acc)) rest
         | none => Except.error ())
    | c :: rest =>
      if c.toNat < 32 then Except.error ()
      else pAux f (PK.strTail (c :: acc)) rest
  | f + 1, PK.arrTail acc, l =>
    match pAux f PK.val l with
    | Except.ok (PR.v j, l₁) =>
      (match (l₁.dropWhile (fun c => isJsonWs c)) with
       | ',' :: l₂ => pAux f (PK.arrTail (acc ++ [j])) l₂
       | ']' :: l₂ => Except.ok (PR.v (Json.arr (acc ++ [j])), l₂)
       | _ => Except.error ())
    | _ => Except.error ()
  | f + 1, PK.objTail acc, l =>
    match (l.dropWhile (fun c => isJsonWs c)) with
    | '"' :: l₁ =>
      (match pAux f (PK.strTail []) l₁ with
       | Except.ok (PR.s k, l₂) =>
         (match (l₂.dropWhile (fun c => isJsonWs c)) with
          | ':' :: l₃ =>
            (match pAux f PK.val l₃ with
             | Except.ok (PR.v j, l₄) =>
               (match (l₄.dropWhile (fun c => isJsonWs c)) with
                | ',' :: l₅ => pAux f (PK.objTail (acc ++ [(k, j)])) l₅
                | '}' :: l₅ => Except.ok (PR.v (Json.obj (acc ++ [(k, j)])), l₅)
                | _ => Except.error ())
             | _ => Except.error ())
          | _ => Except.error ())
       | _ => Except.error ())
    | _ => Except.error ()
  | f + 1, PK.val, l =>
    match (l.dropWhile (fun c => isJsonWs c)) with
    | [] => Except.error ()
    | c :: rest =>
      if c = 'n' then
        (if isPre (S "ull") rest then Except.ok (PR.v Json.null, rest.drop 3)
         else Except.error ())
      else if c = 't' then
        (if isPre (S "rue") rest then Except.ok (PR.v (Json.bool true), rest.drop 3)
         else Except.error ())
      else if c = 'f' then
        (if isPre (S "alse") rest then Except.ok (PR.v (Json.bool false), rest.drop 4)
         else Except.error ())
      else if c = 'I' then
        (if isPre (S "nfinity") rest then
          Except.ok (PR.v (Json.flt (S "Infinity")), rest.drop 7)
         else Except.error ())
      else if c = 'N' then
        (if isPre (S "aN") rest then
          Except.ok (PR.v (Json.flt (S "NaN")), rest.drop 2)
         else Except.error ())
      else if c = '"' then
        (match pAux f (PK.strTail []) rest with
         | Except.ok (PR.s st, l₁) => Except.ok (PR.v (Json.str st), l₁)
         | _ => Except.error ())
      else if c = '[' then
        (match (rest.dropWhile (fun d => isJsonWs d)) with
         | ']' :: l₁ => Except.ok (PR.v (Json.arr []), l₁)
         | _ => pAux f (PK.arrTail []) rest)
      else if c = '{' then
        (match (rest.dropWhile (fun d => isJsonWs d)) with
         | '}' :: l₁ => Except.ok (PR.v (Json.obj []), l₁)
         | _ => pAux f (PK.objTail []) rest)
      else if c = '-' ∨ isDigitCh c then
        (match pNum (c :: rest) with
         | Except.ok (j, l₁) => Except.ok (PR.v j, l₁)
         | Except.error _ => Except.error ())
      else Except.error ()

/-- Model of `json.loads`: parse one value, then require only whitespace
to remain. -/
def jsonParse (s : Str) : Except Unit Json :=
  match pAux (3 * s.length + 8) PK.val s with
  | Except.ok (PR.v j, rest) =>
    if rest.dropWhile (fun c => isJsonWs c) = [] then Except.ok j
    else Except.error ()
  | _ => Except.error ()

/-- `True` on `Except.ok`. -/
def jsonOk : Except Unit Json → Bool
  | Except.ok _ => true
  | Except.error _ => false

/-- Dict lookup on a parsed object: the last binding of a key wins, as in
a Python dict built by `json.loads`. -/
def objGet (fields : List (Str × Json)) (k : Str) : Option Json :=
  match fields with
  | [] => none
  | (k₂, v) :: rest =>
    match objGet rest k with
    | some r => some r
    | none => if k₂ = k then some v else none

/-- A JSON value shaped like the spec's FileSpec: an object whose `path`
and `language` are strings. -/
def isFileSpecJ : Json → Bool
  | Json.obj fs =>
    (match objGet fs (S "path") with
     | some (Json.str _) => true
     | _ => false)
    && (match objGet fs (S "language") with
        | some (Json.str _) => true
        | _ => false)
  | _ => false

/-- A JSON value shaped like the spec's ProjectStructure: an object with a
string `name` and a `files` array of FileSpecs. -/
def isValidStructure : Json → Bool
  | Json.obj fs =>
    (match objGet fs (S "name") with
     | some (Json.str _) => true
     | _ => false)
    && (match objGet fs (S "files") with
        | some (Json.arr items) => items.all (fun it => isFileSpecJ it)
        | _ => false)
  | _ => false

/-! ### `_parse_structure_response` -/

/-- The default structure returned on any internal parse error
(coder.py lines 166-172). -/
def defaultStructure : Json :=
  Json.obj
    [(S "name", Json.str (S "project")),
     (S "files",
      Json.arr
        [Json.obj [(S "path", Json.str (S "main.py")),
                   (S "language", Json.str (S "python"))],
         Json.obj [(S "path", Json.str (S "README.md")),
                   (S "language", Json.str (S "markdown"))]])]

/-- The opening marker of the pattern `` ```json\n(.*?)\n``` ``. -/
def fenceOpenM : Str := S "```json\n"

/-- The closing marker of the same pattern. -/
def fenceCloseM : Str := S "\n```"

/-- `re.search(r'```json\n(.*?)\n```', response, re.DOTALL)`: the leftmost
occurrence of the opening marker, then the lazy group extends to the first
following occurrence of the closing marker. -/
def jsonBlockSearch (response : Str) : Option Str :=
  match findSub fenceOpenM response with
  | none => none
  | some (_, after) =>
    match findSub fenceCloseM after with
    | none => none
    | some (g, _) => some g

/-- The tuple of extensions recognised by the line-oriented fallback. -/
def srcExts : List Str :=
  [S ".py", S ".js", S ".ts", S ".java", S ".cpp", S ".rs", S ".go"]

/-- `line.endswith(('.py', '.js', '.ts', '.java', '.cpp', '.rs', '.go'))`. -/
def endsAnyExt (l : Str) : Bool := srcExts.any (fun e => endsW e l)

/-- The fallback loop of `_parse_structure_response` (lines 153-159):
for each stripped line ending in a recognised extension, record a file
entry with the `- `-stripped path and the detected language. -/
def fallbackFiles (ls : List Str) : List Json :=
  ls.foldl
    (fun acc line =>
      let t := stripWs line
      if endsAnyExt t then
        acc ++ [Json.obj [(S "path", Json.str (stripDashBoth t)),
                          (S "language", Json.str (detectLanguage t))]]
      else acc)
    []

/-- `_parse_structure_response(response)`.  The Python body runs inside
`try`: a `json.loads` failure on a detected block reaches the `except`
and yields the default structure; the fallback loop itself cannot raise
(its operations are total), so its result is returned directly. -/
def parseStructureResponse (response : Str) : Json :=
  match jsonBlockSearch response with
  | some g =>
    (match jsonParse g with
     | Except.ok v => v
     | Except.error _ => defaultStructure)
  | none =>
    Json.obj
      [(S "name", Json.str (S "project")),
       (S "files", Json.arr (fallbackFiles (splitLines (stripWs response))))]

/-! ### `_fix_python_syntax` -/

/-- `line.startswith(' ') or line.startswith('\t')`. -/
def startsIndent (l : Str) : Bool :=
  match l with
  | [] => false
  | c :: _ => c = ' ' ∨ c = '\t'

/-- `prev.endswith(':')` on the original preceding line; `none` for the
first line (the source guards with `i > 0`). -/
def prevEndsColon : Option Str → Bool
  | none => false
  | some p => endsW (S ":") p

/-- Four spaces. -/
def indent4 : Str := S "    "

/-- One line of the repair loop: trailing whitespace removed, then a
4-space indent prepended when the line is non-empty, unindented, and the
original preceding line ends with a colon. -/
def fixLine (prev : Option Str) (line : Str) : Str :=
  let r := rstripWs line
  if r ≠ [] ∧ ¬ startsIndent r ∧ prevEndsColon prev then indent4 ++ r else r

/-- The repair loop, carrying the original preceding line. -/
def fixLinesGo : Option Str → List Str → List Str
  | _, [] => []
  | prev, l :: rest => fixLine prev l :: fixLinesGo (some l) rest

/-- `_fix_python_syntax(code, error_msg)`; the error message is unused by
the source and omitted. -/
def fixPythonSyntax (code : Str) : Str :=
  joinLines (fixLinesGo none (splitLines code))

/-! ### `_clean_generated_code`

The syntax-validity check `ast.parse(code)` calls Python's own parser, an
external collaborator; it is passed in as an abstract predicate `pyOk`
(true = parses).  Claims quantify over it; concrete evaluations with a
non-Python tag never consult it. -/

/-- `_clean_generated_code(code, language)`. -/
def cleanGeneratedCode (pyOk : Str → Bool) (code : Str) (language : Str) : Str :=
  let c₁ := subFenceOpen code
  let c₂ := removeTriple c₁
  let c₃ := subEcho mHash c₂
  let c₄ := subEcho mSlash c₃
  let c₅ :=
    if language = S "python" ∧ ¬ pyOk c₄ then fixPythonSyntax c₄ else c₄
  stripWs c₅

/-- A concrete stand-in for the syntax checker, used only to instantiate
concrete evaluations whose language tag is not `python` (the checker is
never consulted there). -/
def pyOkAny : Str → Bool := fun _ => true

/-! ### `_extract_dependencies`

Python branch: `re.finditer(r'^\s*(?:import|from)\s+(\S+)', code,
re.MULTILINE)`.  With `MULTILINE`, `^` matches at the start of the text
and after every newline; `\s*` may then cross newlines; the alternation
is decided by the next non-space characters; `\s+` requires at least one
whitespace character; the group is the following maximal non-whitespace
run.  `finditer` yields non-overlapping matches, resuming after each
match end. -/

/-- Try the Python-import pattern at an anchor position. -/
def pyTryMatch (l : Str) : Option (Str × Str) :=
  let l₁ := l.dropWhile (fun c => isSpaceCh c)
  let kw : Option Nat :=
    if isPre (S "import") l₁ then some 6
    else if isPre (S "from") l₁ then some 4
    else none
  match kw with
  | none => none
  | some k =>
    let r₁ := l₁.drop k
    let r₂ := r₁.dropWhile (fun c => isSpaceCh c)
    if r₁.length = r₂.length then none
    else
      let tok := r₂.takeWhile (fun c => ¬ isSpaceCh c)
      if tok = [] then none else some (tok, r₂.drop tok.length)

/-- Scanner for the anchored Python pattern.  `anchor` records whether the
current position is the start of the text or just after a newline (the
only places `^` matches); a successful match always ends on a
non-newline character, so the position after it is not an anchor.  Fuel
is the text length; each step consumes at least one character. -/
def pyScanF : Nat → Bool → Str → List Str
  | 0, _, _ => []
  | _ + 1, _, [] => []
  | f + 1, anchor, c :: rest =>
    if anchor then
      match pyTryMatch (c :: rest) with
      | some (tok, after) => tok :: pyScanF f false after
      | none => pyScanF f (c = '\n') rest
    else pyScanF f (c = '\n') rest

/-- All group captures of the Python-import pattern, in match order. -/
def pyMatches (code : Str) : List Str := pyScanF code.length true code

/-! JavaScript branch: three patterns are scanned over the whole text one
after the other:
`require\(['\"](\S+?)['\"]\)`, `import.*from\s+['\"](\S+?)['\"]`, and
`import\s+['\"](\S+?)['\"]`.  The lazy `\S+?` group extends minimally to
the first position where the rest of the pattern matches. -/

/-- Lazy `(\S+?)['\"]\)`: the shortest non-empty non-whitespace run
followed by a quote and a closing parenthesis.  `acc` holds the consumed
characters in reverse. -/
def lazyQP (acc : Str) : Str → Option (Str × Str)
  | [] => none
  | c :: rest =>
    if isQuoteCh c ∧ acc ≠ [] ∧ rest.head? = some ')' then
      some (acc.reverse, rest.drop 1)
    else if isSpaceCh c then none
    else lazyQP (c :: acc) rest

/-- Lazy `(\S+?)['\"]`: the shortest non-empty non-whitespace run followed
by a quote. -/
def lazyQ (acc : Str) : Str → Option (Str × Str)
  | [] => none
  | c :: rest =>
    if isQuoteCh c ∧ acc ≠ [] then some (acc.reverse, rest)
    else if isSpaceCh c then none
    else lazyQ (c :: acc) rest

/-- Try `require\(['\"](\S+?)['\"]\)` at the current position. -/
def reqTry (l : Str) : Option (Str × Str) :=
  if isPre (S "require(") l then
    match l.drop 8 with
    | [] => none
    | q :: rest => if isQuoteCh q then lazyQP [] rest else none
  else none

/-- The part of the import-from pattern after the greedy `.*`:
`from\s+['\"](\S+?)['\"]`. -/
def fromTail (t : Str) : Option (Str × Str) :=
  if isPre (S "from") t then
    let t₁ := t.drop 4
    let t₂ := t₁.dropWhile (fun c => isSpaceCh c)
    if t₁.length = t₂.length then none
    else
      match t₂ with
      | [] => none
      | q :: rest => if isQuoteCh q then lazyQ [] rest else none
  else none

/-- Greedy `.*` with backtracking: among the positions reachable without
crossing a newline, the deepest one where `fromTail` succeeds wins. -/
def bestFrom : Str → Option (Str × Str)
  | [] => fromTail []
  | c :: rest =>
    if c = '\n' then fromTail (c :: rest)
    else
      match bestFrom rest with
      | some r => some r
      | none => fromTail (c :: rest)

/-- Try `import.*from\s+['\"](\S+?)['\"]` at the current position. -/
def impFromTry (l : Str) : Option (Str × Str) :=
  if isPre (S "import") l then bestFrom (l.drop 6) else none

/-- Try `import\s+['\"](\S+?)['\"]` at the current position. -/
def impBareTry (l : Str) : Option (Str × Str) :=
  if isPre (S "import") l then
    let t₁ := l.drop 6
    let t₂ := t₁.dropWhile (fun c => isSpaceCh c)
    if t₁.length = t₂.length then none
    else
      match t₂ with
      | [] => none
      | q :: rest => if isQuoteCh q then lazyQ [] rest else none
  else none

/-- Generic `finditer` scanner for an unanchored pattern: try the pattern
at every position, resume after each match.  Fuel is the text length. -/
def scanPF (probe : Str → Option (Str × Str)) : Nat → Str → List Str
  | 0, _ => []
  | _ + 1, [] => []
  | f + 1, c :: rest =>
    match probe (c :: rest) with
    | some (cap, after) => cap :: scanPF probe f after
    | none => scanPF probe f rest

/-- All group captures of one pattern over the whole text. -/
def scanP (probe : Str → Option (Str × Str)) (l : Str) : List Str :=
  scanPF probe l.length l

/-- The three JavaScript patterns, scanned in the order of the source's
`patterns` list. -/
def jsMatches (code : Str) : List Str :=
  scanP reqTry code ++ scanP impFromTry code ++ scanP impBareTry code

/-- `dep.startswith('_')` / `dep.startswith('.')`. -/
def headIs (c : Char) : Str → Bool
  | [] => false
  | d :: _ => d = c

/-- The body of the Python dependency loop: split the capture on `.`,
then append unless already present or private. -/
def pyDepStep (deps : List Str) (m : Str) : List Str :=
  let dep := m.takeWhile (fun c => c ≠ '.')
  if dep ∈ deps ∨ headIs '_' dep then deps else deps ++ [dep]

/-- The body of the JavaScript dependency loop: skip when the raw capture
is already present or relative, otherwise append its first
`/`-segment. -/
def jsDepStep (deps : List Str) (dep : Str) : List Str :=
  if dep ∈ deps ∨ headIs '.' dep then deps
  else deps ++ [dep.takeWhile (fun c => c ≠ '/')]

/-- `_extract_dependencies(code, language)`.  The Python branch splits the
captured module on `.` first and de-duplicates on the split value; the
JavaScript branch de-duplicates and filters on the raw capture and then
appends its first `/`-segment. -/
def extractDependencies (code : Str) (language : Str) : List Str :=
  if language = S "python" then (pyMatches code).foldl pyDepStep []
  else if language = S "javascript" then (jsMatches code).foldl jsDepStep []
  else []

/-! ### Spec-side definitions

These follow the words of the spec sentences under verification, for the
refinement-style claims; they are compared against the embeddings above. -/

/-- Follows the spec's words for the line-oriented fallback (spec 4.2
tier 2, claim C6): one FileSpec per non-empty trimmed line ending in a
recognised source extension, in order, with leading list markers
stripped from the recorded path and the language tag from the
Detector. -/
def fallbackSpecFiles (response : Str) : List Json :=
  (splitLines (stripWs response)).filterMap
    (fun line =>
      let t := stripWs line
      if t ≠ [] ∧ endsAnyExt t then
        some (Json.obj [(S "path", Json.str (lstripDashSp t)),
                        (S "language", Json.str (detectLanguage t))])
      else none)

/-- No line other than possibly the last ends with a colon, i.e. no line
has a preceding line ending in `:` (claim C8's hypothesis). -/
def noHangingColon : List Str → Bool
  | [] => true
  | [_] => true
  | a :: rest => (! endsW (S ":") a) && noHangingColon rest

/-- Every line already carries no trailing whitespace. -/
def allRstripped (code : Str) : Bool :=
  (splitLines code).all (fun l => rstripWs l = l)

/-- A line that *begins* with an echo marker (case-insensitive) — the
line-anchored reading used by claims C4 and C7. -/
def isEchoLine (l : Str) : Bool := isPreCI mHash l ∨ isPreCI mSlash l

/-- The structure name observer, used to separate distinct parsed
structures. -/
def structName : Json → Option Str
  | Json.obj fs =>
    (match objGet fs (S "name") with
     | some (Json.str s) => some s
     | _ => none)
  | _ => none

/-! ## Lemmas: occurrence predicates -/

theorem isPre_iff (p : Str) : ∀ l : Str, isPre p l = true ↔ ∃ t, l = p ++ t := by
  induction p with
  | nil => intro l; simp [isPre]
  | cons a as ih =>
    intro l
    cases l with
    | nil => simp [isPre]
    | cons b bs =>
      simp only [isPre, Bool.and_eq_true, decide_eq_true_eq, ih bs]
      constructor
      · rintro ⟨rfl, t, rfl⟩; exact ⟨t, rfl⟩
      · rintro ⟨t, h⟩
        injection h with h1 h2
        exact ⟨h1.symm, t, h2⟩

theorem isPre_append_self (p t : Str) : isPre p (p ++ t) = true :=
  (isPre_iff p _).mpr ⟨t, rfl⟩

theorem containsSub_iff (p : Str) :
    ∀ l : Str, containsSub p l = true ↔ ∃ a b, l = a ++ p ++ b := by
  intro l
  induction l with
  | nil =>
    simp only [containsSub, isPre_iff]
    constructor
    · rintro ⟨t, h⟩
      exact ⟨[], t, by simpa using h⟩
    · rintro ⟨a, b, h⟩
      rcases List.append_eq_nil.mp h.symm with ⟨h1, h2⟩
      rcases List.append_eq_nil.mp h1 with ⟨rfl, rfl⟩
      exact ⟨b, by simp [h2]⟩
  | cons c rest ih =>
    simp only [containsSub, Bool.or_eq_true, isPre_iff, ih]
    constructor
    · rintro (⟨t, h⟩ | ⟨a, b, h⟩)
      · exact ⟨[], t, by simpa using h⟩
      · exact ⟨c :: a, b, by simp [h]⟩
    · rintro ⟨a, b, h⟩
      cases a with
      | nil => exact Or.inl ⟨b, by simpa using h⟩
      | cons a0 as =>
        injection h with h1 h2
        exact Or.inr ⟨as, b, h2⟩

theorem containsSub_of_isPre {p l : Str} (h : isPre p l = true) :
    containsSub p l = true := by
  rcases (isPre_iff p l).mp h with ⟨t, rfl⟩
  exact (containsSub_iff p _).mpr ⟨[], t, rfl⟩

theorem containsSub_append_right {p x : Str} (t : Str)
    (h : containsSub p x = true) : containsSub p (x ++ t) = true := by
  rcases (containsSub_iff p x).mp h with ⟨a, b, rfl⟩
  exact (containsSub_iff p _).mpr ⟨a, b ++ t, by simp⟩

theorem containsSub_append_left {p x : Str} (a : Str)
    (h : containsSub p x = true) : containsSub p (a ++ x) = true := by
  rcases (containsSub_iff p x).mp h with ⟨u, w, rfl⟩
  exact (containsSub_iff p _).mpr ⟨a ++ u, w, by simp⟩

theorem isPre_take {p l : Str} (h : isPre p l = true) :
    p.length ≤ l.length ∧ l.take p.length = p := by
  rcases (isPre_iff p l).mp h with ⟨t, rfl⟩
  constructor
  · simp
  · simp [List.take_append_eq_append_take]

/-! ## Lemmas: leftmost search -/

theorem findSub_sound (p : Str) :
    ∀ l a b, findSub p l = some (a, b) → l = a ++ p ++ b := by
  intro l
  induction l with
  | nil =>
    intro a b h
    by_cases hp : isPre p [] = true
    · rcases (isPre_iff p []).mp hp with ⟨t, ht⟩
      have hpnil : p = [] := (List.append_eq_nil.mp ht.symm).1
      simp only [findSub, if_pos hp] at h
      injection h with h'
      injection h' with h1 h2
      subst h1; subst h2
      simp [hpnil]
    · simp only [findSub, if_neg hp] at h
      exact Option.noConfusion h
  | cons c rest ih =>
    intro a b h
    by_cases hp : isPre p (c :: rest) = true
    · simp only [findSub, if_pos hp] at h
      injection h with h'
      injection h' with h1 h2
      rcases (isPre_iff p _).mp hp with ⟨t, ht⟩
      subst h1
      rw [ht] at h2 ⊢
      rw [List.drop_left] at h2
      simp [h2]
    · simp only [findSub, if_neg hp] at h
      cases hfs : findSub p rest with
      | none => rw [hfs] at h; exact Option.noConfusion h
      | some ab =>
        rw [hfs] at h
        rcases ab with ⟨a', b'⟩
        injection h with h'
        injection h' with h1 h2
        subst h2
        have := ih a' b' hfs
        rw [← h1]
        simp [this]

theorem isPre_dropLast {p x : Str} (rest : Str)
    (h : isPre p (x ++ rest) = true) (hl : p.length + 1 ≤ x.length) :
    isPre p x.dropLast = true := by
  rcases isPre_take h with ⟨_, htake⟩
  have h1 : x.take p.length = p := by
    rw [List.take_append_eq_append_take] at htake
    have hz : p.length - x.length = 0 := by omega
    rw [hz] at htake
    simpa using htake
  have h2 : x.dropLast.take p.length = p := by
    rw [List.dropLast_eq_take, List.take_take,
      Nat.min_eq_left (by omega), h1]
  rw [isPre_iff]
  refine ⟨x.dropLast.drop p.length, ?_⟩
  have h3 := List.take_append_drop p.length x.dropLast
  rw [h2] at h3
  exact h3.symm

theorem findSub_self (p rest : Str) (hp : p ≠ []) :
    findSub p (p ++ rest) = some ([], rest) := by
  rcases p with _ | ⟨d, p'⟩
  · exact absurd rfl hp
  · rw [List.cons_append]
    simp only [findSub]
    rw [if_pos (by rw [← List.cons_append]; exact isPre_append_self _ _)]
    rw [← List.cons_append, List.drop_left]

theorem findSub_at (p : Str) (hp : p ≠ []) :
    ∀ pre rest, containsSub p ((pre ++ p).dropLast) = false →
      findSub p (pre ++ p ++ rest) = some (pre, rest) := by
  intro pre
  induction pre with
  | nil =>
    intro rest _
    rw [List.nil_append]
    exact findSub_self p rest hp
  | cons c pre' ih =>
    intro rest h
    have hnp : isPre p (c :: (pre' ++ (p ++ rest))) = false := by
      cases hip : isPre p (c :: (pre' ++ (p ++ rest))) with
      | false => rfl
      | true =>
        have hip' : isPre p (((c :: pre') ++ p) ++ rest) = true := by
          rw [List.append_assoc, List.cons_append]
          exact hip
        have hpre2 : isPre p ((c :: pre') ++ p).dropLast = true :=
          isPre_dropLast rest hip'
            (by simp only [List.cons_append, List.length_cons, List.length_append]; omega)
        have hcon := containsSub_of_isPre hpre2
        rw [hcon] at h; cases h
    have hshape : ∃ d ds, pre' ++ p = d :: ds := by
      cases hx : pre' ++ p with
      | nil => exact absurd (List.append_eq_nil.mp hx).2 hp
      | cons d ds => exact ⟨d, ds, rfl⟩
    rcases hshape with ⟨d, ds, hdds⟩
    have hdl : ((c :: pre') ++ p).dropLast = c :: (pre' ++ p).dropLast := by
      rw [List.cons_append, hdds, List.dropLast_cons₂, ← hdds]
    have h2 : containsSub p ((pre' ++ p).dropLast) = false := by
      cases hcc : containsSub p ((pre' ++ p).dropLast) with
      | false => rfl
      | true =>
        have hup := containsSub_append_left [c] hcc
        simp only [List.singleton_append] at hup
        rw [hdl, hup] at h; cases h
    have hrec := ih rest h2
    simp only [List.append_assoc, List.cons_append] at hrec ⊢
    simp only [findSub]
    rw [if_neg (by rw [hnp]; exact Bool.false_ne_true)]
    rw [hrec]

/-! ## Lemmas: the fenced-JSON-block search -/

theorem jsonBlockSearch_at (pre g post : Str)
    (h1 : containsSub fenceOpenM ((pre ++ fenceOpenM).dropLast) = false)
    (h2 : containsSub fenceCloseM ((g ++ fenceCloseM).dropLast) = false) :
    jsonBlockSearch (pre ++ fenceOpenM ++ g ++ fenceCloseM ++ post) = some g := by
  have hf1 := findSub_at fenceOpenM (by decide) pre (g ++ fenceCloseM ++ post) h1
  have hf2 := findSub_at fenceCloseM (by decide) g post h2
  have e1 : pre ++ fenceOpenM ++ g ++ fenceCloseM ++ post
      = pre ++ fenceOpenM ++ (g ++ fenceCloseM ++ post) := by
    simp [List.append_assoc]
  rw [e1]
  simp only [jsonBlockSearch, hf1, hf2]

theorem jsonBlockSearch_decomp {r g : Str} (h : jsonBlockSearch r = some g) :
    ∃ pre post, r = pre ++ fenceOpenM ++ g ++ fenceCloseM ++ post := by
  cases hf : findSub fenceOpenM r with
  | none =>
    simp only [jsonBlockSearch, hf] at h
    exact Option.noConfusion h
  | some aft =>
    rcases aft with ⟨a, after⟩
    cases hf2 : findSub fenceCloseM after with
    | none =>
      simp only [jsonBlockSearch, hf, hf2] at h
      exact Option.noConfusion h
    | some gp =>
      rcases gp with ⟨g', post⟩
      simp only [jsonBlockSearch, hf, hf2, Option.some.injEq] at h
      subst h
      have e1 := findSub_sound fenceOpenM r a after hf
      have e2 := findSub_sound fenceCloseM after g' post hf2
      refine ⟨a, post, ?_⟩
      rw [e1, e2]
      simp [List.append_assoc]

/-! ## Claim C1 -/

/-- C1 (amended): whenever the JSON parse of the detected fenced block
fails, `_parse_structure_response` returns exactly the fixed default
structure, and that default is a valid ProjectStructure.  (The claim's
further assertion that the returned value is *always* a valid
ProjectStructure fails on the JSON tier — see the counterexample.) -/
theorem claim1_default_on_error (r g : Str)
    (h1 : jsonBlockSearch r = some g)
    (h2 : jsonOk (jsonParse g) = false) :
    parseStructureResponse r = defaultStructure ∧
      isValidStructure (parseStructureResponse r) = true := by
  cases hj : jsonParse g with
  | ok v => rw [hj] at h2; simp [jsonOk] at h2
  | error e =>
    have hd : parseStructureResponse r = defaultStructure := by
      simp [parseStructureResponse, h1, hj]
    exact ⟨hd, by rw [hd]; decide⟩

/-- C1 witness: the concrete response `` ```json\nnope\n``` `` has a fenced
block whose contents fail to parse; the parser returns the valid default. -/
theorem claim1_witness :
    parseStructureResponse (S "```json\nnope\n```") = defaultStructure ∧
      isValidStructure (parseStructureResponse (S "```json\nnope\n```")) = true :=
  claim1_default_on_error (S "```json\nnope\n```") (S "nope") (by decide) (by decide)

/-- C1 counterexample: on `` ```json\n123\n``` `` the block's contents parse
as the JSON number `123`, which is returned as-is and is not a valid
ProjectStructure — refuting the claim that the returned value is always a
valid ProjectStructure. -/
theorem claim1_counterexample :
    parseStructureResponse (S "```json\n123\n```") = Json.num 123 ∧
      isValidStructure (Json.num 123) = false :=
  ⟨rfl, rfl⟩

/-! ## Claim C5 -/

/-- C5 (amended): when the *leftmost* `` ```json `` fence with its
*nearest* closing fence delimits contents that parse as JSON matching the
schema, the parser returns exactly that parsed object, ignoring all other
text.  (The original claim, quantified over any text containing *some*
schema-parsing block, fails: if the first fence's contents do not parse,
the default is returned even when a later block would parse — see the
counterexample.) -/
theorem claim5_first_block (pre g post : Str) (v : Json)
    (h1 : containsSub fenceOpenM ((pre ++ fenceOpenM).dropLast) = false)
    (h2 : containsSub fenceCloseM ((g ++ fenceCloseM).dropLast) = false)
    (h3 : jsonParse g = Except.ok v)
    (h4 : isValidStructure v = true) :
    parseStructureResponse (pre ++ fenceOpenM ++ g ++ fenceCloseM ++ post) = v := by
  have hs := jsonBlockSearch_at pre g post h1 h2
  simp only [List.append_assoc] at hs
  simp [parseStructureResponse, hs, h3]

/-- C5 witness: a well-formed fenced JSON block surrounded by other text is
parsed and returned exactly. -/
theorem claim5_witness :
    parseStructureResponse
        (S "text before\n" ++ fenceOpenM ++
          S "\x7b\"name\": \"demo\", \"files\": [\x7b\"path\": \"main.py\", \"language\": \"python\"\x7d]\x7d" ++
          fenceCloseM ++ S "\ntrailing") =
      Json.obj [(S "name", Json.str (S "demo")),
        (S "files", Json.arr [Json.obj [(S "path", Json.str (S "main.py")),
          (S "language", Json.str (S "python"))]])] :=
  claim5_first_block _ _ _ _ (by decide) (by decide) (by rfl) (by rfl)

/-- C5 counterexample: the text below contains a well-formed fenced JSON
block matching the schema (its second block; the first block's contents
`nope` do not parse, so the second is the only — hence first — such
block), yet the parser returns the default structure, not the parsed
object. -/
theorem claim5_counterexample :
    (S "```json\nnope\n```\n```json\n\x7b\"name\": \"p\", \"files\": []\x7d\n```"
      = S "```json\nnope\n```\n" ++ fenceOpenM ++
          S "\x7b\"name\": \"p\", \"files\": []\x7d" ++ fenceCloseM ++ ([] : Str))
    ∧ jsonOk (jsonParse (S "nope")) = false
    ∧ jsonParse (S "\x7b\"name\": \"p\", \"files\": []\x7d")
        = Except.ok (Json.obj [(S "name", Json.str (S "p")), (S "files", Json.arr [])])
    ∧ isValidStructure
        (Json.obj [(S "name", Json.str (S "p")), (S "files", Json.arr [])]) = true
    ∧ parseStructureResponse
        (S "```json\nnope\n```\n```json\n\x7b\"name\": \"p\", \"files\": []\x7d\n```")
        = defaultStructure
    ∧ structName defaultStructure ≠
        structName (Json.obj [(S "name", Json.str (S "p")), (S "files", Json.arr [])]) :=
  ⟨by decide, by decide, by rfl, by rfl, by rfl, by decide⟩

/-! ## Claim C6: the line-oriented fallback -/

theorem foldl_opt_append {α β : Type} (g : α → Option β) (step : List β → α → List β)
    (hstep : ∀ acc x, step acc x = acc ++ ((g x).map (fun y => [y])).getD []) :
    ∀ (ls : List α) (acc : List β), ls.foldl step acc = acc ++ ls.filterMap g := by
  intro ls
  induction ls with
  | nil => intro acc; simp
  | cons x xs ih =>
    intro acc
    simp only [List.foldl_cons, hstep, List.filterMap_cons]
    cases hg : g x with
    | none => simp only [hg, Option.map_none', Option.getD_none, List.append_nil]; exact ih acc
    | some y =>
      simp only [hg, Option.map_some', Option.getD_some]
      rw [ih (acc ++ [y])]
      simp

theorem endsAnyExt_ne_nil {t : Str} (h : endsAnyExt t = true) : t ≠ [] := by
  intro ht
  subst ht
  exact absurd h (by decide)

theorem stripDash_eq (t : Str) (h : endsAnyExt t = true) :
    stripDashBoth t = lstripDashSp t := by
  have hex : ∃ e, e ∈ srcExts ∧ endsW e t = true := by
    simpa [endsAnyExt, List.any_eq_true] using h
  rcases hex with ⟨e, he, hew⟩
  have hlastB : srcExts.all
      (fun e' => match e'.reverse with
                 | [] => false
                 | c :: _ => ! isDashSp c) = true := by decide
  have hlast := List.all_eq_true.mp hlastB e he
  cases hre : e.reverse with
  | nil => rw [hre] at hlast; exact absurd hlast (by simp)
  | cons c cs =>
    rw [hre] at hlast
    have hcd : isDashSp c = false := by
      simpa using hlast
    have hw : ∃ w, t.reverse = c :: (cs ++ w) := by
      rcases (isPre_iff e.reverse t.reverse).mp hew with ⟨w, hwt⟩
      exact ⟨w, by rw [hwt, hre]; rfl⟩
    rcases hw with ⟨w, hwt⟩
    unfold stripDashBoth lstripDashSp
    set D := t.dropWhile (fun c => isDashSp c) with hD
    suffices hsuf : D.reverse.dropWhile (fun c => isDashSp c) = D.reverse by
      rw [hsuf, List.reverse_reverse]
    cases hDr : D.reverse with
    | nil => simp
    | cons d ds =>
      have htsplit : t = t.takeWhile (fun c => isDashSp c) ++ D :=
        (List.takeWhile_append_dropWhile _ _).symm
      have hrev2 : t.reverse = d :: (ds ++ (t.takeWhile (fun c => isDashSp c)).reverse) := by
        conv_lhs => rw [htsplit]
        rw [List.reverse_append, hDr, List.cons_append]
      have hdc : c = d := by
        have hcd2 := hwt.symm.trans hrev2
        simpa using congrArg List.head? hcd2
      have hdneg : ¬ (isDashSp d = true) := by
        rw [← hdc, hcd]
        exact Bool.false_ne_true
      exact List.dropWhile_cons_of_neg hdneg

theorem fallbackFiles_spec (r : Str) :
    fallbackFiles (splitLines (stripWs r)) = fallbackSpecFiles r := by
  unfold fallbackFiles fallbackSpecFiles
  rw [foldl_opt_append
    (fun line =>
      let t := stripWs line
      if t ≠ [] ∧ endsAnyExt t then
        some (Json.obj [(S "path", Json.str (lstripDashSp t)),
                        (S "language", Json.str (detectLanguage t))])
      else none)]
  · rw [List.nil_append]
  · intro acc line
    by_cases hext : endsAnyExt (stripWs line) = true
    · have hne : stripWs line ≠ [] := endsAnyExt_ne_nil hext
      simp only [hext, if_pos, hne, ne_eq, not_false_eq_true, true_and, if_true,
        Option.map_some', Option.getD_some]
      rw [stripDash_eq _ hext]
    · have hext' : endsAnyExt (stripWs line) = false := by
        cases hx : endsAnyExt (stripWs line) with
        | true => exact absurd hx hext
        | false => rfl
      simp [hext']

/-- C6: for raw text containing no fenced JSON block, the parser returns
the structure with generic name `project` and exactly one FileSpec per
non-empty trimmed line ending in a recognised source extension, in order,
with leading list markers stripped from the recorded path and the
language tag given by the Language Detector on that line. -/
theorem claim6_fallback_lines (r : Str)
    (h : ¬ ∃ pre mid post, r = pre ++ fenceOpenM ++ mid ++ fenceCloseM ++ post) :
    parseStructureResponse r =
      Json.obj [(S "name", Json.str (S "project")),
                (S "files", Json.arr (fallbackSpecFiles r))] := by
  have hs : jsonBlockSearch r = none := by
    cases hq : jsonBlockSearch r with
    | none => rfl
    | some g =>
      rcases jsonBlockSearch_decomp hq with ⟨pre, post, hd⟩
      exact absurd ⟨pre, g, post, hd⟩ h
  simp only [parseStructureResponse, hs, fallbackFiles_spec]

/-- C6 witness: a concrete fallback parse; `README.md` does not carry a
recognised source extension while `- main.py` and `app.js` do. -/
theorem claim6_witness :
    parseStructureResponse (S "Files:\n- main.py\nREADME.md\napp.js\n") =
      Json.obj [(S "name", Json.str (S "project")),
                (S "files", Json.arr
                  [Json.obj [(S "path", Json.str (S "main.py")),
                             (S "language", Json.str (S "python"))],
                   Json.obj [(S "path", Json.str (S "app.js")),
                             (S "language", Json.str (S "javascript"))]])] := by
  have hnb : ¬ ∃ pre mid post,
      S "Files:\n- main.py\nREADME.md\napp.js\n"
        = pre ++ fenceOpenM ++ mid ++ fenceCloseM ++ post := by
    rintro ⟨pre, mid, post, hd⟩
    have hocc : containsSub fenceOpenM (S "Files:\n- main.py\nREADME.md\napp.js\n") = true := by
      rw [hd]
      refine (containsSub_iff _ _).mpr ⟨pre, mid ++ fenceCloseM ++ post, ?_⟩
      simp [List.append_assoc]
    exact absurd hocc (by decide)
  rw [claim6_fallback_lines _ hnb]
  rfl

/-! ## Claims C2, C9, C3: the dependency extractor -/

/-- C2 (amended): on the claim's input the JavaScript extractor yields
exactly `["lodash", "react"]` — the relative import `./local` is excluded
and `lodash/fp` is collapsed to its first segment, but the order follows
the pattern list (all `require` matches are scanned before the
import-from matches), not the textual first occurrence. -/
theorem claim2_js_deps_order :
    extractDependencies
        (S "import './local'\nimport React from 'react'\nconst x = require('lodash/fp')")
        (S "javascript")
      = [S "lodash", S "react"] := by decide

/-- C2 counterexample: the extractor does not return the claimed
`["react", "lodash"]` on that input. -/
theorem claim2_counterexample :
    extractDependencies
        (S "import './local'\nimport React from 'react'\nconst x = require('lodash/fp')")
        (S "javascript")
      ≠ [S "react", S "lodash"] := by decide

/-- C9: on the claim's input the Python extractor yields exactly
`["os", "collections"]`: first-occurrence order, leading underscore
excluded, first dot-segment recorded, no duplicates. -/
theorem claim9_python_deps :
    extractDependencies
        (S "import os\nfrom collections import OrderedDict\nimport _private")
        (S "python")
      = [S "os", S "collections"] := by decide

theorem foldl_step_nodup (step : List Str → Str → List Str)
    (hstep : ∀ acc x, step acc x = acc ∨ ∃ y, step acc x = acc ++ [y] ∧ y ∉ acc) :
    ∀ (toks : List Str) (acc : List Str), acc.Nodup → (toks.foldl step acc).Nodup := by
  intro toks
  induction toks with
  | nil => intro acc h; simpa using h
  | cons m ms ih =>
    intro acc h
    rw [List.foldl_cons]
    rcases hstep acc m with hs | ⟨y, hy, hny⟩
    · rw [hs]; exact ih acc h
    · rw [hy]
      refine ih _ (List.nodup_append.mpr ⟨h, List.nodup_singleton y, ?_⟩)
      intro a ha hb
      rw [List.mem_singleton] at hb
      subst hb
      exact hny ha

theorem foldl_step_all (P : Str → Bool) (step : List Str → Str → List Str)
    (hstep : ∀ acc x, step acc x = acc ∨ ∃ y, step acc x = acc ++ [y] ∧ P y = true) :
    ∀ (toks : List Str) (acc : List Str),
      acc.all P = true → (toks.foldl step acc).all P = true := by
  intro toks
  induction toks with
  | nil => intro acc h; simpa using h
  | cons m ms ih =>
    intro acc h
    rw [List.foldl_cons]
    rcases hstep acc m with hs | ⟨y, hy, hPy⟩
    · rw [hs]; exact ih acc h
    · rw [hy]
      refine ih _ ?_
      rw [List.all_append]
      simp [h, hPy]

theorem pyDepStep_cases (acc : List Str) (m : Str) :
    pyDepStep acc m = acc ∨
      ∃ y, pyDepStep acc m = acc ++ [y] ∧ y ∉ acc ∧ headIs '_' y = false := by
  unfold pyDepStep
  by_cases hg : (m.takeWhile (fun c => c ≠ '.')) ∈ acc ∨ headIs '_' (m.takeWhile (fun c => c ≠ '.')) = true
  · left; rw [if_pos hg]
  · right
    refine ⟨m.takeWhile (fun c => c ≠ '.'), by rw [if_neg hg], ?_, ?_⟩
    · exact fun hmem => hg (Or.inl hmem)
    · cases hx : headIs '_' (m.takeWhile (fun c => c ≠ '.')) with
      | false => rfl
      | true => exact absurd (Or.inr hx) hg

theorem headIs_takeWhile_slash {dep : Str} (h : headIs '.' dep = false) :
    headIs '.' (dep.takeWhile (fun c => c ≠ '/')) = false := by
  cases dep with
  | nil => rfl
  | cons d r =>
    rw [List.takeWhile_cons]
    by_cases hd : d = '/'
    · simp [hd, headIs]
    · simp only [hd, decide_not, decide_False]
      simp only [headIs] at h ⊢
      simpa [hd] using h

theorem jsDepStep_cases (acc : List Str) (m : Str) :
    jsDepStep acc m = acc ∨
      ∃ y, jsDepStep acc m = acc ++ [y] ∧ headIs '.' y = false := by
  unfold jsDepStep
  by_cases hg : m ∈ acc ∨ headIs '.' m = true
  · left; rw [if_pos hg]
  · right
    refine ⟨m.takeWhile (fun c => c ≠ '/'), by rw [if_neg hg], ?_⟩
    have hm : headIs '.' m = false := by
      cases hx : headIs '.' m with
      | false => rfl
      | true => exact absurd (Or.inr hx) hg
    exact headIs_takeWhile_slash hm

/-- C3 (amended): for every input text, the Python-branch dependency list
contains no duplicates and no entry beginning with an underscore, and the
JavaScript-branch list contains no entry beginning with a relative-path
marker `.`.  (The original claim fails in two ways shown by the
counterexample: the JavaScript branch can produce duplicates, because it
de-duplicates on the un-collapsed path while appending the collapsed
first segment; and a Python relative import such as `from .mod import x`
contributes the empty string — the part of `.mod` before its first dot —
rather than being filtered out.) -/
theorem claim3_invariants (code : Str) :
    (extractDependencies code (S "python")).Nodup
    ∧ (extractDependencies code (S "python")).all (fun d => ! headIs '_' d) = true
    ∧ (extractDependencies code (S "javascript")).all (fun d => ! headIs '.' d) = true := by
  have hpy : extractDependencies code (S "python") = (pyMatches code).foldl pyDepStep [] := by
    unfold extractDependencies
    rw [if_pos rfl]
  have hjs : extractDependencies code (S "javascript")
      = (jsMatches code).foldl jsDepStep [] := by
    unfold extractDependencies
    rw [if_neg (by decide), if_pos rfl]
  refine ⟨?_, ?_, ?_⟩
  · rw [hpy]
    refine foldl_step_nodup pyDepStep ?_ (pyMatches code) [] List.nodup_nil
    intro acc x
    rcases pyDepStep_cases acc x with h | ⟨y, hy, hny, _⟩
    · exact Or.inl h
    · exact Or.inr ⟨y, hy, hny⟩
  · rw [hpy]
    refine foldl_step_all _ pyDepStep ?_ (pyMatches code) [] rfl
    intro acc x
    rcases pyDepStep_cases acc x with h | ⟨y, hy, _, hu⟩
    · exact Or.inl h
    · exact Or.inr ⟨y, hy, by rw [hu]; rfl⟩
  · rw [hjs]
    refine foldl_step_all _ jsDepStep ?_ (jsMatches code) [] rfl
    intro acc x
    rcases jsDepStep_cases acc x with h | ⟨y, hy, hd⟩
    · exact Or.inl h
    · exact Or.inr ⟨y, hy, by rw [hd]; rfl⟩

/-- C3 counterexample: `require('a')` followed by `require('a/b')` yields
the duplicate list `["a", "a"]` in the JavaScript branch, and the Python
relative import `from .mod import x` yields a list containing the empty
string, an entry derived from a relative import. -/
theorem claim3_counterexample :
    extractDependencies (S "require('a')\nrequire('a/b')") (S "javascript")
        = [S "a", S "a"]
    ∧ ¬ (extractDependencies (S "require('a')\nrequire('a/b')") (S "javascript")).Nodup
    ∧ extractDependencies (S "from .mod import x") (S "python") = [([] : Str)] := by
  refine ⟨by decide, by decide, by decide⟩

/-! ## Claim C8: the syntax-repair heuristic -/

theorem splitLines_shape : ∀ x : Str, ∃ h t, splitLines x = h :: t := by
  intro x
  cases x with
  | nil => exact ⟨[], [], rfl⟩
  | cons c rest =>
    cases hr : splitLines rest with
    | nil => exact ⟨[], [], by simp [splitLines, hr]⟩
    | cons h t =>
      by_cases hc : c = '\n'
      · exact ⟨[], h :: t, by simp [splitLines, hr, hc]⟩
      · exact ⟨c :: h, t, by simp [splitLines, hr, hc]⟩

theorem joinLines_splitLines : ∀ x : Str, joinLines (splitLines x) = x := by
  intro x
  induction x with
  | nil => rfl
  | cons c rest ih =>
    rcases splitLines_shape rest with ⟨h, t, hrest⟩
    by_cases hc : c = '\n'
    · subst hc
      simp only [splitLines, hrest, if_pos rfl]
      show '\n' :: joinLines (h :: t) = '\n' :: rest
      rw [← hrest, ih]
    · simp only [splitLines, hrest, if_neg hc]
      cases t with
      | nil =>
        show c :: h = c :: rest
        rw [hrest] at ih
        simp only [joinLines] at ih
        rw [ih]
      | cons t0 ts =>
        show (c :: h) ++ '\n' :: joinLines (t0 :: ts) = c :: rest
        rw [List.cons_append]
        rw [hrest] at ih
        have ih' : h ++ '\n' :: joinLines (t0 :: ts) = rest := ih
        rw [ih']

theorem fixGo_rstrip : ∀ (ls : List Str) (prev : Option Str),
    prevEndsColon prev = false → noHangingColon ls = true →
    fixLinesGo prev ls = ls.map rstripWs := by
  intro ls
  induction ls with
  | nil => intro prev _ _; rfl
  | cons l rest ih =>
    intro prev hprev hnc
    have hline : fixLine prev l = rstripWs l := by
      unfold fixLine
      rw [if_neg]
      rintro ⟨-, -, hpc⟩
      rw [hprev] at hpc
      exact Bool.false_ne_true hpc
    show fixLine prev l :: fixLinesGo (some l) rest = rstripWs l :: rest.map rstripWs
    rw [hline]
    cases rest with
    | nil => rfl
    | cons r1 rs =>
      have hnc2 : ((! endsW (S ":") l) && noHangingColon (r1 :: rs)) = true := hnc
      rw [Bool.and_eq_true] at hnc2
      have hl : endsW (S ":") l = false := by
        cases hx : endsW (S ":") l with
        | false => rfl
        | true => rw [hx] at hnc2; simp at hnc2
      have := ih (some l) (by simpa [prevEndsColon] using hl) hnc2.2
      rw [this]

theorem map_rstrip_id : ∀ ls : List Str,
    ls.all (fun l => rstripWs l = l) = true → ls.map rstripWs = ls := by
  intro ls
  induction ls with
  | nil => intro _; rfl
  | cons l rest ih =>
    intro h
    rw [List.all_cons, Bool.and_eq_true] at h
    have h1 : rstripWs l = l := of_decide_eq_true h.1
    simp only [List.map_cons, h1, ih h.2]

/-- C8 (amended): the repair maps `"if True:\nprint('x')"` to
`"if True:\n    print('x')"`; and on input in which no line's preceding
line ends with `:`, it returns the input with each line's *trailing
whitespace removed* and no other change — in particular, such an input
whose lines carry no trailing whitespace is returned unchanged.  (The
original claim said such inputs are always returned unchanged, which
fails because the loop right-strips every line — see the
counterexample.) -/
theorem claim8_fix_behaviour :
    fixPythonSyntax (S "if True:\nprint('x')") = S "if True:\n    print('x')"
    ∧ (∀ code : Str, noHangingColon (splitLines code) = true →
        fixPythonSyntax code = joinLines ((splitLines code).map rstripWs))
    ∧ (∀ code : Str, noHangingColon (splitLines code) = true →
        allRstripped code = true → fixPythonSyntax code = code) := by
  have hgen : ∀ code : Str, noHangingColon (splitLines code) = true →
      fixPythonSyntax code = joinLines ((splitLines code).map rstripWs) := by
    intro code hnc
    unfold fixPythonSyntax
    rw [fixGo_rstrip (splitLines code) none rfl hnc]
  refine ⟨by decide, hgen, ?_⟩
  intro code hnc hall
  rw [hgen code hnc, map_rstrip_id _ hall, joinLines_splitLines]

/-- C8 witness: a colon-free two-line input with right-stripped lines is
returned unchanged. -/
theorem claim8_witness : fixPythonSyntax (S "x\ny") = S "x\ny" :=
  claim8_fix_behaviour.2.2 (S "x\ny") (by decide) (by decide)

/-- C8 counterexample: `"x \ny"` has no line whose preceding line ends
with a colon, yet the repair returns `"x\ny"`, not the input unchanged
(trailing whitespace is stripped from every line). -/
theorem claim8_counterexample :
    noHangingColon (splitLines (S "x \ny")) = true
    ∧ fixPythonSyntax (S "x \ny") = S "x\ny"
    ∧ fixPythonSyntax (S "x \ny") ≠ S "x \ny" := by
  refine ⟨by decide, by decide, by decide⟩

/-! ## Claim C4: prompt-echo removal is not anchored at line start -/

theorem dropToNl_lt : ∀ t a : Str, dropToNl t = some a → a.length < t.length := by
  intro t
  induction t with
  | nil => intro a h; exact Option.noConfusion h
  | cons c rest ih =>
    intro a h
    simp only [dropToNl] at h
    by_cases hc : c = '\n'
    · rw [if_pos hc] at h
      injection h with h1
      subst h1
      simp
    · rw [if_neg hc] at h
      exact Nat.lt_succ_of_lt (ih a h)

theorem echoMatch_lt {m : Str} (l a : Str) (h : echoMatch m l = some a) :
    a.length < l.length := by
  unfold echoMatch at h
  by_cases hp : isPreCI m l = true
  · rw [if_pos hp] at h
    have h1 := dropToNl_lt _ _ h
    have h2 : (l.drop m.length).length ≤ l.length := by simp
    omega
  · rw [if_neg hp] at h
    exact Option.noConfusion h

theorem subEchoF_fuel (m : Str) : ∀ (f₁ : Nat) (l : Str) (f₂ : Nat),
    l.length ≤ f₁ → l.length ≤ f₂ → subEchoF m f₁ l = subEchoF m f₂ l := by
  intro f₁
  induction f₁ with
  | zero =>
    intro l f₂ h1 _
    have hl : l = [] := List.length_eq_zero.mp (Nat.le_zero.mp h1)
    subst hl
    cases f₂ <;> rfl
  | succ f ih =>
    intro l f₂ h1 h2
    cases l with
    | nil => cases f₂ <;> rfl
    | cons c rest =>
      have hf₂ : ∃ k, f₂ = k + 1 := by
        cases f₂ with
        | zero => simp at h2
        | succ k => exact ⟨k, rfl⟩
      rcases hf₂ with ⟨k, rfl⟩
      simp only [subEchoF]
      cases hm : echoMatch m (c :: rest) with
      | some after =>
        have hlt := echoMatch_lt (c :: rest) after hm
        have hb1 : after.length ≤ f := by simp at h1 hlt; omega
        have hb2 : after.length ≤ k := by simp at h2 hlt; omega
        exact ih after k hb1 hb2
      | none =>
        have hb1 : rest.length ≤ f := by simp at h1; omega
        have hb2 : rest.length ≤ k := by simp at h2; omega
        rw [ih rest k hb1 hb2]

theorem dropToNl_some {mid : Str} (hmid : ('\n' : Char) ∉ mid) (post : Str) :
    dropToNl (mid ++ '\n' :: post) = some post := by
  induction mid with
  | nil => simp [dropToNl]
  | cons c r ih =>
    have hc : ¬ c = '\n' := fun h => hmid (h ▸ List.mem_cons_self c r)
    have hr : ('\n' : Char) ∉ r := fun h => hmid (List.mem_cons_of_mem c h)
    simp only [List.cons_append, dropToNl, if_neg hc]
    exact ih hr

theorem dropToNl_none : ∀ {t : Str}, ('\n' : Char) ∉ t → dropToNl t = none := by
  intro t
  induction t with
  | nil => intro _; rfl
  | cons c r ih =>
    intro h
    have hc : ¬ c = '\n' := fun hx => h (hx ▸ List.mem_cons_self c r)
    simp only [dropToNl, if_neg hc]
    exact ih (fun hx => h (List.mem_cons_of_mem c hx))

theorem isPreCI_eq_map : ∀ m l : Str,
    isPreCI m l = isPre (m.map lowerC) (l.map lowerC) := by
  intro m
  induction m with
  | nil => intro l; cases l <;> rfl
  | cons a as ih =>
    intro l
    cases l with
    | nil => rfl
    | cons b bs =>
      simp only [isPreCI, List.map_cons, isPre, ih bs]

theorem containsCI_eq_map : ∀ m l : Str,
    containsCI m l = containsSub (m.map lowerC) (l.map lowerC) := by
  intro m l
  induction l with
  | nil =>
    show isPreCI m [] = isPre (m.map lowerC) []
    have := isPreCI_eq_map m []
    simpa using this
  | cons c rest ih =>
    simp only [containsCI, containsSub, List.map_cons, ih]
    rw [show isPreCI m (c :: rest) = isPre (m.map lowerC) ((c :: rest).map lowerC)
      from isPreCI_eq_map m (c :: rest)]
    rfl

theorem map_dropLast_comm (f : Char → Char) (l : Str) :
    (l.dropLast).map f = (l.map f).dropLast := by
  rw [List.dropLast_eq_take, List.map_take]
  rw [show l.length = (l.map f).length from (List.length_map l f).symm]
  rw [← List.dropLast_eq_take]

theorem subEchoF_no_newline (m : Str) : ∀ (f : Nat) (l : Str),
    ('\n' : Char) ∉ l → subEchoF m f l = l := by
  intro f
  induction f with
  | zero => intro l _; cases l <;> rfl
  | succ f ih =>
    intro l h
    cases l with
    | nil => rfl
    | cons c rest =>
      have hem : echoMatch m (c :: rest) = none := by
        unfold echoMatch
        by_cases hp : isPreCI m (c :: rest) = true
        · rw [if_pos hp]
          refine dropToNl_none ?_
          intro hx
          exact h (List.mem_of_mem_drop hx)
        · rw [if_neg hp]
      simp only [subEchoF, hem]
      rw [ih rest (fun hx => h (List.mem_cons_of_mem c hx))]

/-- C4 counterexample: the input's only `# Response:` occurrence is not at
a line start (no line of the input is an echo line), yet cleaning removes
it — refuting the claim that such occurrences are left unchanged. -/
theorem claim4_counterexample :
    (splitLines (S "x # Response: hi\ny")).all (fun l => ! isEchoLine l) = true
    ∧ containsCI mHash
        (cleanGeneratedCode pyOkAny (S "x # Response: hi\ny") (S "text")) = false
    ∧ cleanGeneratedCode pyOkAny (S "x # Response: hi\ny") (S "text")
        ≠ stripWs (S "x # Response: hi\ny") := by
  refine ⟨by decide, by decide, by decide⟩

/-! ## Identity lemmas for the removal scanners -/

theorem subEchoF_id (m : Str) : ∀ (f : Nat) (l : Str),
    containsCI m l = false → subEchoF m f l = l := by
  intro f
  induction f with
  | zero => intro l _; cases l <;> rfl
  | succ f ih =>
    intro l h
    cases l with
    | nil => rfl
    | cons c rest =>
      have hsplit : isPreCI m (c :: rest) = false ∧ containsCI m rest = false := by
        have hh : (isPreCI m (c :: rest) || containsCI m rest) = false := h
        exact ⟨(Bool.or_eq_false_iff.mp hh).1, (Bool.or_eq_false_iff.mp hh).2⟩
      simp only [subEchoF, echoMatch, hsplit.1, Bool.false_eq_true, if_false]
      rw [ih rest hsplit.2]

theorem subEcho_id {m l : Str} (h : containsCI m l = false) : subEcho m l = l :=
  subEchoF_id m l.length l h

theorem subFenceOpenF_id : ∀ (f : Nat) (l : Str),
    containsSub trip l = false → subFenceOpenF f l = l := by
  intro f
  induction f with
  | zero => intro l _; cases l <;> rfl
  | succ f ih =>
    intro l h
    cases l with
    | nil => rfl
    | cons c rest =>
      have hh : (isPre trip (c :: rest) || containsSub trip rest) = false := h
      have h1 := (Bool.or_eq_false_iff.mp hh).1
      have h2 := (Bool.or_eq_false_iff.mp hh).2
      simp only [subFenceOpenF, fenceMatch, h1, Bool.false_eq_true, if_false]
      rw [ih rest h2]

theorem subFenceOpen_id {l : Str} (h : containsSub trip l = false) :
    subFenceOpen l = l :=
  subFenceOpenF_id l.length l h

theorem removeTriple_id : ∀ l : Str, containsSub trip l = false → removeTriple l = l
  | [], _ => rfl
  | [_], _ => rfl
  | [_, _], _ => rfl
  | c₁ :: c₂ :: c₃ :: rest, h => by
    have hh : (isPre trip (c₁ :: c₂ :: c₃ :: rest)
        || containsSub trip (c₂ :: c₃ :: rest)) = false := h
    have h1 := (Bool.or_eq_false_iff.mp hh).1
    have h2 := (Bool.or_eq_false_iff.mp hh).2
    have hcond : ¬ (c₁ = btick ∧ c₂ = btick ∧ c₃ = btick) := by
      rintro ⟨rfl, rfl, rfl⟩
      have : isPre trip (btick :: btick :: btick :: rest) = true := by
        simp [trip, isPre]
      rw [this] at h1; cases h1
    simp only [removeTriple, if_neg hcond]
    rw [removeTriple_id (c₂ :: c₃ :: rest) h2]

/-! ## Strip lemmas -/

theorem dropWhile_dw (p : Char → Bool) : ∀ l : Str,
    (l.dropWhile p).dropWhile p = l.dropWhile p := by
  intro l
  induction l with
  | nil => rfl
  | cons c r ih =>
    by_cases hc : p c = true
    · rw [List.dropWhile_cons_of_pos hc, ih]
    · rw [List.dropWhile_cons_of_neg hc, List.dropWhile_cons_of_neg hc]

theorem rstrip_append (l : Str) :
    l = rstripWs l ++ (l.reverse.takeWhile (fun c => isSpaceCh c)).reverse := by
  unfold rstripWs
  conv_lhs => rw [← List.reverse_reverse l]
  conv_lhs => rw [← List.takeWhile_append_dropWhile (fun c => isSpaceCh c) l.reverse]
  rw [List.reverse_append]

theorem rstrip_idem (l : Str) : rstripWs (rstripWs l) = rstripWs l := by
  unfold rstripWs
  rw [List.reverse_reverse, dropWhile_dw]

theorem dropWhile_length_le (p : Char → Bool) : ∀ l : Str,
    (l.dropWhile p).length ≤ l.length := by
  intro l
  induction l with
  | nil => simp
  | cons c r ih =>
    by_cases hc : p c = true
    · rw [List.dropWhile_cons_of_pos hc]
      exact Nat.le_succ_of_le ih
    · rw [List.dropWhile_cons_of_neg hc]

theorem lstrip_rstrip_of_lstripped (y : Str)
    (hy : y.dropWhile (fun c => isSpaceCh c) = y) :
    lstripWs (rstripWs y) = rstripWs y := by
  cases hr : rstripWs y with
  | nil => rfl
  | cons c t =>
    have hy2 : y = c :: (t ++ (y.reverse.takeWhile (fun c => isSpaceCh c)).reverse) := by
      conv_lhs => rw [rstrip_append y]
      rw [hr, List.cons_append]
    have hc : isSpaceCh c = false := by
      cases hc : isSpaceCh c with
      | false => rfl
      | true =>
        have hlen := congrArg List.length hy
        rw [hy2] at hy
        rw [List.dropWhile_cons_of_pos hc] at hy
        have hle := dropWhile_length_le (fun c => isSpaceCh c)
          (t ++ (y.reverse.takeWhile (fun c => isSpaceCh c)).reverse)
        rw [hy] at hle
        simp at hle
    unfold lstripWs
    rw [List.dropWhile_cons_of_neg (by rw [hc]; exact Bool.false_ne_true)]

theorem strip_idem (l : Str) : stripWs (stripWs l) = stripWs l := by
  unfold stripWs
  have hy : (lstripWs l).dropWhile (fun c => isSpaceCh c) = lstripWs l :=
    dropWhile_dw _ l
  rw [show lstripWs (rstripWs (lstripWs l)) = rstripWs (lstripWs l) from
    lstrip_rstrip_of_lstripped _ hy]
  exact rstrip_idem _

theorem strip_decomp (l : Str) : ∃ a b, l = a ++ stripWs l ++ b := by
  refine ⟨l.takeWhile (fun c => isSpaceCh c),
    ((lstripWs l).reverse.takeWhile (fun c => isSpaceCh c)).reverse, ?_⟩
  conv_lhs => rw [← List.takeWhile_append_dropWhile (fun c => isSpaceCh c) l]
  rw [List.append_assoc]
  congr 1
  exact rstrip_append (lstripWs l)

/-! ## Case-insensitive occurrence monotonicity -/

theorem containsCI_nil_left : ∀ t : Str, containsCI [] t = true := by
  intro t
  cases t with
  | nil => rfl
  | cons c r => simp [containsCI, isPreCI]

theorem isPreCI_append_right (m : Str) : ∀ (x t : Str),
    isPreCI m x = true → isPreCI m (x ++ t) = true := by
  induction m with
  | nil => intro x t _; rfl
  | cons a as ih =>
    intro x t h
    cases x with
    | nil => exact absurd h (by simp [isPreCI])
    | cons c r =>
      have hh : (lowerC a = lowerC c) ∧ isPreCI as r = true := by
        simpa [isPreCI] using h
      rw [List.cons_append]
      simp only [isPreCI, Bool.and_eq_true, decide_eq_true_eq]
      exact ⟨hh.1, ih r t hh.2⟩

theorem containsCI_append_right (m : Str) : ∀ (x t : Str),
    containsCI m x = true → containsCI m (x ++ t) = true := by
  intro x
  induction x with
  | nil =>
    intro t h
    cases m with
    | nil => exact containsCI_nil_left t
    | cons a as => exact absurd h (by simp [containsCI, isPreCI])
  | cons c r ih =>
    intro t h
    have hh : (isPreCI m (c :: r) || containsCI m r) = true := h
    rw [List.cons_append]
    rcases Bool.or_eq_true_iff.mp hh with h1 | h2
    · have := isPreCI_append_right m (c :: r) t h1
      rw [List.cons_append] at this
      exact Bool.or_eq_true_iff.mpr (Or.inl this)
    · exact Bool.or_eq_true_iff.mpr (Or.inr (ih t h2))

theorem containsCI_append_left (m : Str) : ∀ (a x : Str),
    containsCI m x = true → containsCI m (a ++ x) = true := by
  intro a
  induction a with
  | nil => intro x h; exact h
  | cons c r ih =>
    intro x h
    rw [List.cons_append]
    exact Bool.or_eq_true_iff.mpr (Or.inr (ih x h))

theorem containsCI_strip_false {m l : Str} (h : containsCI m l = false) :
    containsCI m (stripWs l) = false := by
  cases hc : containsCI m (stripWs l) with
  | false => rfl
  | true =>
    rcases strip_decomp l with ⟨a, b, hab⟩
    have h1 := containsCI_append_right m (stripWs l) b hc
    have h2 := containsCI_append_left m a _ h1
    rw [← List.append_assoc, ← hab] at h2
    rw [h2] at h; cases h

theorem containsSub_strip_false {p l : Str} (h : containsSub p l = false) :
    containsSub p (stripWs l) = false := by
  cases hc : containsSub p (stripWs l) with
  | false => rfl
  | true =>
    rcases strip_decomp l with ⟨a, b, hab⟩
    have h1 := containsSub_append_right b hc
    have h2 := containsSub_append_left a h1
    rw [← List.append_assoc, ← hab] at h2
    rw [h2] at h; cases h

/-! ## Claim C7 -/

theorem clean_eq_strip (pyOk : Str → Bool) (z lang : Str)
    (hlang : lang ≠ S "python")
    (h1 : containsTriple z = false)
    (h2 : containsCI mHash z = false)
    (h3 : containsCI mSlash z = false) :
    cleanGeneratedCode pyOk z lang = stripWs z := by
  have e1 : subFenceOpen z = z := subFenceOpen_id h1
  have e2 : removeTriple z = z := removeTriple_id z h1
  have e3 : subEcho mHash z = z := subEcho_id h2
  have e4 : subEcho mSlash z = z := subEcho_id h3
  simp only [cleanGeneratedCode, e1, e2, e3, e4]
  rw [if_neg]
  rintro ⟨hl, -⟩
  exact hlang hl

/-- C7 (amended): for every syntax-checker model, every language tag other
than `python`, and every input containing no triple-backtick and no
occurrence of either echo marker anywhere (not merely at line starts),
cleaning is idempotent — both cleanings reduce to whitespace stripping.
(The original claim, whose hypothesis only excludes echo *lines* and
which covers every tag, fails: a mid-line marker occurrence can be
spliced into a new one by the first removal — see the counterexample;
and the `python` tag additionally invokes the external syntax checker
and repair, which the claim's hypothesis does not control.) -/
theorem claim7_idempotent (pyOk : Str → Bool) (x lang : Str)
    (hlang : lang ≠ S "python")
    (h1 : containsTriple x = false)
    (h2 : containsCI mHash x = false)
    (h3 : containsCI mSlash x = false) :
    cleanGeneratedCode pyOk (cleanGeneratedCode pyOk x lang) lang
      = cleanGeneratedCode pyOk x lang := by
  have hc1 := clean_eq_strip pyOk x lang hlang h1 h2 h3
  rw [hc1]
  rw [clean_eq_strip pyOk (stripWs x) lang hlang
    (containsSub_strip_false h1) (containsCI_strip_false h2)
    (containsCI_strip_false h3)]
  exact strip_idem x

/-- C7 witness: cleaning a clean two-word text twice equals cleaning it
once. -/
theorem claim7_witness :
    cleanGeneratedCode pyOkAny
        (cleanGeneratedCode pyOkAny (S "  hello world ") (S "text")) (S "text")
      = cleanGeneratedCode pyOkAny (S "  hello world ") (S "text") :=
  claim7_idempotent pyOkAny (S "  hello world ") (S "text")
    (by decide) (by decide) (by decide) (by decide)

/-- C7 counterexample: the input below contains no fence marker and no
prompt-echo *line* (no line begins with a marker), yet cleaning is not
idempotent with the `text` tag: the first cleaning splices the text
around a mid-line match into a new echo match, which the second cleaning
then removes. -/
theorem claim7_counterexample :
    containsTriple (S "# Res# Response: a\nponse: b\nend") = false
    ∧ (splitLines (S "# Res# Response: a\nponse: b\nend")).all
        (fun l => ! isEchoLine l) = true
    ∧ cleanGeneratedCode pyOkAny
        (cleanGeneratedCode pyOkAny (S "# Res# Response: a\nponse: b\nend") (S "text"))
        (S "text")
      ≠ cleanGeneratedCode pyOkAny (S "# Res# Response: a\nponse: b\nend") (S "text") := by
  refine ⟨by decide, by decide, by decide⟩

theorem subEcho_removes (m : Str) (hm : 0 < m.length) (w mid post : Str)
    (hw : isPreCI m w = true) (hlen : w.length = m.length)
    (hmid : ('\n' : Char) ∉ mid) :
    ∀ (pre : Str) (fuel : Nat),
      containsCI m ((pre ++ w).dropLast) = false →
      (pre ++ (w ++ (mid ++ '\n' :: post))).length ≤ fuel →
      subEchoF m fuel (pre ++ (w ++ (mid ++ '\n' :: post))) = pre ++ subEcho m post := by
  intro pre
  induction pre with
  | nil =>
    intro fuel _ hfuel
    cases w with
    | nil => rw [← hlen] at hm; simp at hm
    | cons wc w' =>
      rw [List.nil_append] at hfuel ⊢
      have hfp : ∃ f, fuel = f + 1 := by
        cases fuel with
        | zero => simp at hfuel
        | succ f => exact ⟨f, rfl⟩
      rcases hfp with ⟨f, rfl⟩
      rw [List.cons_append]
      have hem : echoMatch m (wc :: (w' ++ (mid ++ '\n' :: post))) = some post := by
        unfold echoMatch
        have hpre : isPreCI m (wc :: (w' ++ (mid ++ '\n' :: post))) = true := by
          have h := isPreCI_append_right m (wc :: w') (mid ++ '\n' :: post) hw
          rw [List.cons_append] at h
          exact h
        rw [if_pos hpre]
        have hdrop : (wc :: (w' ++ (mid ++ '\n' :: post))).drop m.length
            = mid ++ '\n' :: post := by
          rw [← List.cons_append, ← hlen]
          exact List.drop_left _ _
        rw [hdrop]
        exact dropToNl_some hmid post
      simp only [subEchoF, hem]
      have hpost : post.length ≤ f := by
        simp only [List.cons_append, List.length_cons, List.length_append] at hfuel
        omega
      rw [subEchoF_fuel m f post post.length hpost (Nat.le_refl _)]
      rfl
  | cons c pre' ih =>
    intro fuel hno hfuel
    rw [List.cons_append] at hfuel ⊢
    have hfp : ∃ f, fuel = f + 1 := by
      cases fuel with
      | zero => simp at hfuel
      | succ f => exact ⟨f, rfl⟩
    rcases hfp with ⟨f, rfl⟩
    have hwne : w ≠ [] := by
      intro hx
      rw [hx] at hlen
      rw [← hlen] at hm
      simp at hm
    have hem : echoMatch m (c :: (pre' ++ (w ++ (mid ++ '\n' :: post)))) = none := by
      cases hp : isPreCI m (c :: (pre' ++ (w ++ (mid ++ '\n' :: post)))) with
      | false =>
        unfold echoMatch
        rw [if_neg (by rw [hp]; exact Bool.false_ne_true)]
      | true =>
        exfalso
        have hp2 : isPreCI m (((c :: pre') ++ w) ++ (mid ++ '\n' :: post)) = true := by
          rw [List.append_assoc, List.cons_append]
          exact hp
        have hp3 : isPre (m.map lowerC)
            (((c :: pre') ++ w).map lowerC ++ (mid ++ '\n' :: post).map lowerC) = true := by
          rw [← List.map_append, ← isPreCI_eq_map]
          exact hp2
        have hlend : (m.map lowerC).length + 1 ≤ (((c :: pre') ++ w).map lowerC).length := by
          rw [List.length_map, List.length_map]
          simp only [List.cons_append, List.length_cons, List.length_append]
          omega
        have hdl := isPre_dropLast _ hp3 hlend
        rw [← map_dropLast_comm] at hdl
        have hcon := containsSub_of_isPre hdl
        rw [← containsCI_eq_map] at hcon
        rw [hcon] at hno
        cases hno
    simp only [subEchoF, hem]
    have hshape : ∃ d ds, pre' ++ w = d :: ds := by
      cases hx : pre' ++ w with
      | nil => exact absurd (List.append_eq_nil.mp hx).2 hwne
      | cons d ds => exact ⟨d, ds, rfl⟩
    rcases hshape with ⟨d, ds, hdds⟩
    have hdl2 : ((c :: pre') ++ w).dropLast = c :: (pre' ++ w).dropLast := by
      rw [List.cons_append, hdds, List.dropLast_cons₂, ← hdds]
    rw [hdl2] at hno
    have hno2 : containsCI m ((pre' ++ w).dropLast) = false := by
      have hsplit : (isPreCI m (c :: (pre' ++ w).dropLast)
          || containsCI m ((pre' ++ w).dropLast)) = false := hno
      exact (Bool.or_eq_false_iff.mp hsplit).2
    have hfuel2 : (pre' ++ (w ++ (mid ++ '\n' :: post))).length ≤ f := by
      simp only [List.length_cons] at hfuel
      omega
    rw [ih f hno2 hfuel2]
    rw [List.cons_append]

/-- C4 (amended): the echo-removal step is not anchored at line start.
Universally: for either marker, whenever the (case-insensitive) leftmost
marker occurrence sits at any position — `pre` holding the text before
it, with no earlier occurrence start — the substitution removes the
occurrence together with everything up to and including the next newline
(`mid` newline-free) and continues on the remainder, so every such
occurrence is removed in turn; and on text containing no newline at all,
nothing is removed — an occurrence with no following newline is left in
place. -/
theorem claim4_echo_removal :
    (∀ (m w pre mid post : Str), (m = mHash ∨ m = mSlash) →
      isPreCI m w = true → w.length = m.length → ('\n' : Char) ∉ mid →
      containsCI m ((pre ++ w).dropLast) = false →
      subEcho m (pre ++ (w ++ (mid ++ '\n' :: post))) = pre ++ subEcho m post)
    ∧ (∀ (m l : Str), (m = mHash ∨ m = mSlash) → ('\n' : Char) ∉ l →
      subEcho m l = l) := by
  constructor
  · intro m w pre mid post hmk hw hlen hmid hno
    have hm : 0 < m.length := by
      rcases hmk with rfl | rfl <;> decide
    exact subEcho_removes m hm w mid post hw hlen hmid pre _ hno (Nat.le_refl _)
  · intro m l _ hnl
    exact subEchoF_no_newline m l.length l hnl

/-- C4 witness: a mid-line `# Response:` occurrence is removed up to and
including its newline, and a marker with no following newline is kept. -/
theorem claim4_witness :
    subEcho mHash (S "x " ++ (S "# Response:" ++ (S " hi" ++ '\n' :: S "y")))
        = S "x " ++ subEcho mHash (S "y")
    ∧ subEcho mHash (S "# Response: hi") = S "# Response: hi" :=
  ⟨claim4_echo_removal.1 mHash (S "# Response:") (S "x ") (S " hi") (S "y")
      (Or.inl rfl) (by decide) (by decide) (by decide) (by decide),
   claim4_echo_removal.2 mHash (S "# Response: hi") (Or.inl rfl) (by decide)⟩

/-! ## Claim C10: no triple backtick survives the fence removal -/

theorem removeTriple_cons (c : Char) (rest : Str)
    (h : isPre trip (c :: rest) = false) :
    removeTriple (c :: rest) = c :: removeTriple rest := by
  match rest with
  | [] => rfl
  | [d] => rfl
  | d :: e :: r =>
    have hcond : ¬ (c = btick ∧ d = btick ∧ e = btick) := by
      rintro ⟨rfl, rfl, rfl⟩
      have : isPre trip (btick :: btick :: btick :: r) = true := by
        simp [trip, isPre]
      rw [this] at h; cases h
    simp only [removeTriple, if_neg hcond]

theorem isPre_trip_cons_ne {c : Char} (hc : ¬ c = btick) (w : Str) :
    isPre trip (c :: w) = false := by
  show (decide (btick = c) && isPre [btick, btick] w) = false
  rw [decide_eq_false (fun h => hc h.symm), Bool.false_and]

theorem isPre_two_cons_ne {c : Char} (hc : ¬ c = btick) (w : Str) :
    isPre [btick, btick] (c :: w) = false := by
  show (decide (btick = c) && isPre [btick] w) = false
  rw [decide_eq_false (fun h => hc h.symm), Bool.false_and]

theorem isPre_one_cons_ne {c : Char} (hc : ¬ c = btick) (w : Str) :
    isPre [btick] (c :: w) = false := by
  show (decide (btick = c) && isPre [] w) = false
  rw [decide_eq_false (fun h => hc h.symm), Bool.false_and]

theorem removeTriple_noTriple : ∀ l : Str, containsTriple (removeTriple l) = false
  | [] => by decide
  | [c] => by
    show containsTriple [c] = false
    show (isPre trip [c] || containsTriple []) = false
    have h1 : isPre trip [c] = false := by
      show (decide (btick = c) && isPre [btick, btick] []) = false
      rw [Bool.and_comm]
      rfl
    rw [h1]
    rfl
  | [c₁, c₂] => by
    show containsTriple [c₁, c₂] = false
    show (isPre trip [c₁, c₂] || containsTriple [c₂]) = false
    have h1 : isPre trip [c₁, c₂] = false := by
      show (decide (btick = c₁) && (decide (btick = c₂) && isPre [btick] [])) = false
      have : isPre [btick] ([] : Str) = false := rfl
      rw [this, Bool.and_false, Bool.and_false]
    have h2 : isPre trip [c₂] = false := by
      show (decide (btick = c₂) && isPre [btick, btick] []) = false
      have : isPre [btick, btick] ([] : Str) = false := rfl
      rw [this, Bool.and_false]
    show (isPre trip [c₁, c₂] || (isPre trip [c₂] || containsTriple [])) = false
    rw [h1, h2]
    rfl
  | c₁ :: c₂ :: c₃ :: rest => by
    by_cases hb : c₁ = btick ∧ c₂ = btick ∧ c₃ = btick
    · simp only [removeTriple, if_pos hb]
      exact removeTriple_noTriple rest
    · simp only [removeTriple, if_neg hb]
      have hr := removeTriple_noTriple (c₂ :: c₃ :: rest)
      show (isPre trip (c₁ :: removeTriple (c₂ :: c₃ :: rest))
          || containsTriple (removeTriple (c₂ :: c₃ :: rest))) = false
      rw [hr, Bool.or_false]
      by_cases hc₁ : c₁ = btick
      · subst hc₁
        have hnb : ¬ (c₂ = btick ∧ c₃ = btick) := fun hx => hb ⟨rfl, hx.1, hx.2⟩
        by_cases hc₂ : c₂ = btick
        · subst hc₂
          have hc₃ : ¬ c₃ = btick := fun h3 => hnb ⟨rfl, h3⟩
          have e2 : removeTriple (btick :: c₃ :: rest)
              = btick :: removeTriple (c₃ :: rest) := by
            refine removeTriple_cons btick (c₃ :: rest) ?_
            show (decide (btick = btick) && isPre [btick, btick] (c₃ :: rest)) = false
            rw [isPre_two_cons_ne hc₃, Bool.and_false]
          have e3 : removeTriple (c₃ :: rest) = c₃ :: removeTriple rest :=
            removeTriple_cons c₃ rest (isPre_trip_cons_ne hc₃ rest)
          rw [e2, e3]
          show (decide (btick = btick)
              && (decide (btick = btick) && isPre [btick] (c₃ :: removeTriple rest))) = false
          rw [isPre_one_cons_ne hc₃, Bool.and_false, Bool.and_false]
        · have e2 : removeTriple (c₂ :: c₃ :: rest)
              = c₂ :: removeTriple (c₃ :: rest) :=
            removeTriple_cons c₂ (c₃ :: rest) (isPre_trip_cons_ne hc₂ _)
          rw [e2]
          show (decide (btick = btick)
              && isPre [btick, btick] (c₂ :: removeTriple (c₃ :: rest))) = false
          rw [isPre_two_cons_ne hc₂, Bool.and_false]
      · exact isPre_trip_cons_ne hc₁ _

theorem isPre_nl {p : Str} (hnl : ('\n' : Char) ∉ p) :
    ∀ x y : Str, isPre p (x ++ '\n' :: y) = true → isPre p x = true := by
  induction p with
  | nil => intro x y _; rfl
  | cons a as ih =>
    intro x y h
    cases x with
    | nil =>
      exfalso
      have hh : a = '\n' ∧ isPre as y = true := by
        simpa [isPre] using h
      exact hnl (hh.1 ▸ List.mem_cons_self a as)
    | cons c r =>
      have hh : a = c ∧ isPre as (r ++ '\n' :: y) = true := by
        simpa [isPre] using h
      have hnl2 : ('\n' : Char) ∉ as := fun hm => hnl (List.mem_cons_of_mem a hm)
      simp only [isPre, Bool.and_eq_true, decide_eq_true_eq]
      exact ⟨hh.1, ih hnl2 r y hh.2⟩

theorem containsSub_nl_split {p : Str} (hnl : ('\n' : Char) ∉ p) :
    ∀ a b : Str, containsSub p (a ++ '\n' :: b) = true →
      containsSub p a = true ∨ containsSub p b = true := by
  intro a
  induction a with
  | nil =>
    intro b h
    have hh : (isPre p ('\n' :: b) || containsSub p b) = true := h
    rcases Bool.or_eq_true_iff.mp hh with h1 | h2
    · cases p with
      | nil => exact Or.inl rfl
      | cons q qs =>
        have hq : q = '\n' ∧ isPre qs b = true := by simpa [isPre] using h1
        exact absurd (hq.1 ▸ List.mem_cons_self q qs) hnl
    · exact Or.inr h2
  | cons c r ih =>
    intro b h
    have hh : (isPre p (c :: r ++ '\n' :: b) || containsSub p (r ++ '\n' :: b)) = true := h
    rcases Bool.or_eq_true_iff.mp hh with h1 | h2
    · have h1' : isPre p ((c :: r) ++ '\n' :: b) = true := by
        rw [List.cons_append]; exact h1
      have := isPre_nl hnl (c :: r) b h1'
      exact Or.inl (containsSub_of_isPre this)
    · rcases ih b h2 with hr | hb
      · exact Or.inl (Bool.or_eq_true_iff.mpr (Or.inr hr))
      · exact Or.inr hb

theorem joinLines_noSub {p : Str} (hp : p ≠ []) (hnl : ('\n' : Char) ∉ p) :
    ∀ ls : List Str, (∀ l ∈ ls, containsSub p l = false) →
      containsSub p (joinLines ls) = false := by
  intro ls
  induction ls with
  | nil =>
    intro _
    cases p with
    | nil => exact absurd rfl hp
    | cons q qs => simp [joinLines, containsSub, isPre]
  | cons l rest ih =>
    intro hall
    cases rest with
    | nil =>
      show containsSub p l = false
      exact hall l (List.mem_singleton.mpr rfl)
    | cons r1 rs =>
      show containsSub p (l ++ '\n' :: joinLines (r1 :: rs)) = false
      cases hc : containsSub p (l ++ '\n' :: joinLines (r1 :: rs)) with
      | false => rfl
      | true =>
        exfalso
        rcases containsSub_nl_split hnl l (joinLines (r1 :: rs)) hc with h1 | h2
        · rw [hall l (List.mem_cons_self _ _)] at h1; cases h1
        · have := ih (fun l' hl' => hall l' (List.mem_cons_of_mem _ hl'))
          rw [this] at h2; cases h2

theorem splitLines_head_pre : ∀ (x : Str) (h : Str) (t : List Str),
    splitLines x = h :: t → ∃ b, x = h ++ b := by
  intro x
  induction x with
  | nil =>
    intro h t hx
    simp only [splitLines] at hx
    injection hx with h1 _
    exact ⟨[], by rw [← h1]; rfl⟩
  | cons c rest ih =>
    intro h t hx
    rcases splitLines_shape rest with ⟨h', t', hrest⟩
    by_cases hc : c = '\n'
    · simp only [splitLines, hrest, if_pos hc] at hx
      injection hx with h1 _
      exact ⟨c :: rest, by rw [← h1]; rfl⟩
    · simp only [splitLines, hrest, if_neg hc] at hx
      injection hx with h1 h2
      rcases ih h' t' hrest with ⟨b, hb⟩
      exact ⟨b, by rw [← h1, hb, List.cons_append]⟩

theorem mem_splitLines : ∀ (x : Str) (l : Str), l ∈ splitLines x →
    ∃ a b, x = a ++ l ++ b := by
  intro x
  induction x with
  | nil =>
    intro l hl
    simp only [splitLines, List.mem_singleton] at hl
    exact ⟨[], [], by rw [hl]; rfl⟩
  | cons c rest ih =>
    intro l hl
    rcases splitLines_shape rest with ⟨h, t, hrest⟩
    by_cases hc : c = '\n'
    · simp only [splitLines, hrest, if_pos hc, List.mem_cons] at hl
      rcases hl with rfl | hl
      · exact ⟨[], c :: rest, by rfl⟩
      · rcases ih l (by rw [hrest]; exact List.mem_cons.mpr hl) with ⟨a, b, hab⟩
        exact ⟨c :: a, b, by rw [hab]; rfl⟩
    · simp only [splitLines, hrest, if_neg hc, List.mem_cons] at hl
      rcases hl with rfl | hl
      · rcases splitLines_head_pre rest h t hrest with ⟨b, hb⟩
        exact ⟨[], b, by rw [hb]; rfl⟩
      · rcases ih l (by rw [hrest]; exact List.mem_cons_of_mem _ hl) with ⟨a, b, hab⟩
        exact ⟨c :: a, b, by rw [hab]; rfl⟩

theorem containsSub_of_infix {p x a b : Str} (hx : x = a ++ p ++ b) :
    containsSub p x = true := by
  rw [hx]
  exact (containsSub_iff p _).mpr ⟨a, b, rfl⟩

theorem splitLines_noSub {p x : Str} (h : containsSub p x = false) :
    ∀ l ∈ splitLines x, containsSub p l = false := by
  intro l hl
  cases hc : containsSub p l with
  | false => rfl
  | true =>
    exfalso
    rcases mem_splitLines x l hl with ⟨a, b, hab⟩
    rcases (containsSub_iff p l).mp hc with ⟨u, w, huw⟩
    have : containsSub p x = true := by
      refine containsSub_of_infix (x := x) (a := a ++ u) (b := w ++ b) ?_
      rw [hab, huw]
      simp [List.append_assoc]
    rw [this] at h; cases h

theorem rstrip_noSub {p l : Str} (h : containsSub p l = false) :
    containsSub p (rstripWs l) = false := by
  cases hc : containsSub p (rstripWs l) with
  | false => rfl
  | true =>
    exfalso
    have h1 := containsSub_append_right
      ((l.reverse.takeWhile (fun c => isSpaceCh c)).reverse) hc
    rw [← rstrip_append l] at h1
    rw [h1] at h; cases h

theorem containsTriple_space_cons (w : Str) :
    containsSub trip (' ' :: w) = containsSub trip w := by
  have h1 : isPre trip (' ' :: w) = false := by
    simp only [trip, isPre]
    have hd : (decide (btick = ' ')) = false := by decide
    rw [hd, Bool.false_and]
  show (isPre trip (' ' :: w) || containsSub trip w) = containsSub trip w
  rw [h1, Bool.false_or]

theorem indent_noTriple {z : Str} (h : containsSub trip z = false) :
    containsSub trip (indent4 ++ z) = false := by
  show containsSub trip (' ' :: ' ' :: ' ' :: ' ' :: z) = false
  rw [containsTriple_space_cons, containsTriple_space_cons,
    containsTriple_space_cons, containsTriple_space_cons]
  exact h

theorem fixLine_noTriple (prev : Option Str) {l : Str}
    (h : containsSub trip l = false) :
    containsSub trip (fixLine prev l) = false := by
  unfold fixLine
  by_cases hcond : rstripWs l ≠ [] ∧ ¬ startsIndent (rstripWs l) ∧
      prevEndsColon prev = true
  · rw [if_pos hcond]
    exact indent_noTriple (rstrip_noSub h)
  · rw [if_neg hcond]
    exact rstrip_noSub h

theorem fixLinesGo_noTriple : ∀ (ls : List Str) (prev : Option Str),
    (∀ l ∈ ls, containsSub trip l = false) →
    ∀ l' ∈ fixLinesGo prev ls, containsSub trip l' = false := by
  intro ls
  induction ls with
  | nil => intro prev _ l' hl'; simp [fixLinesGo] at hl'
  | cons l rest ih =>
    intro prev hall l' hl'
    simp only [fixLinesGo, List.mem_cons] at hl'
    rcases hl' with rfl | hl'
    · exact fixLine_noTriple prev (hall l (List.mem_cons_self _ _))
    · exact ih (some l) (fun w hw => hall w (List.mem_cons_of_mem _ hw)) l' hl'

theorem fix_noTriple {z : Str} (h : containsTriple z = false) :
    containsTriple (fixPythonSyntax z) = false := by
  unfold fixPythonSyntax
  refine joinLines_noSub (by decide) (by decide) _ ?_
  exact fixLinesGo_noTriple (splitLines z) none (splitLines_noSub h)

/-- C10 (amended): after the two fence-removal steps no triple backtick
remains, and the final cleaned text contains no triple backtick for every
input, tag, and syntax-checker model, *provided* the intermediate text
reaching the echo-removal steps has no occurrence of either echo marker.
(The unconditional claim fails: echo removal deletes a matched span and
splices its surroundings, which can create a new triple backtick — see
the counterexample.) -/
theorem claim10_no_fence_left (pyOk : Str → Bool) (x lang : Str)
    (h1 : containsCI mHash (removeTriple (subFenceOpen x)) = false)
    (h2 : containsCI mSlash (removeTriple (subFenceOpen x)) = false) :
    containsTriple (cleanGeneratedCode pyOk x lang) = false := by
  have e0 : containsTriple (removeTriple (subFenceOpen x)) = false :=
    removeTriple_noTriple (subFenceOpen x)
  have e3 : subEcho mHash (removeTriple (subFenceOpen x))
      = removeTriple (subFenceOpen x) := subEcho_id h1
  have e4 : subEcho mSlash (removeTriple (subFenceOpen x))
      = removeTriple (subFenceOpen x) := subEcho_id h2
  simp only [cleanGeneratedCode, e3, e4]
  by_cases hfix : lang = S "python" ∧ ¬ pyOk (removeTriple (subFenceOpen x)) = true
  · rw [if_pos hfix]
    exact containsSub_strip_false (fix_noTriple e0)
  · rw [if_neg hfix]
    exact containsSub_strip_false e0

/-- C10 witness: cleaning a fenced Python snippet leaves no triple
backtick. -/
theorem claim10_witness :
    containsTriple
      (cleanGeneratedCode pyOkAny (S "```python\nprint(1)\n```") (S "text")) = false :=
  claim10_no_fence_left pyOkAny (S "```python\nprint(1)\n```") (S "text")
    (by decide) (by decide)

/-- C10 counterexample: on ``"`# Response: x\n``"`` the fence steps remove
nothing, but the echo removal deletes `# Response: x\n` and splices the
single leading backtick onto the two trailing ones — the cleaned output
is exactly ```` ``` ````, refuting the claim that the output never
contains a triple backtick. -/
theorem claim10_counterexample :
    cleanGeneratedCode pyOkAny (S "`# Response: x\n``") (S "text") = S "```"
    ∧ containsTriple
        (cleanGeneratedCode pyOkAny (S "`# Response: x\n``") (S "text")) = true := by
  refine ⟨by decide, by decide⟩

end Omega
